import Mathlib

/-!
Watchpoint pool and command loop of the NEMU simple debugger.

A shallow embedding of `nemu/src/monitor/sdb/watchpoint.c` and `nemu/src/monitor/sdb/sdb.c`.

* A pointer `WP *` is `Option Nat`: `none` is `NULL`, `some i` is `&wp_pool[i]`.
* The static array `wp_pool` is a function from indices to slots; the capacity
  `NR_WP` (32 in the source) is a parameter of `init_wp_pool`.
* Every `while (tmp)` walk takes a fuel argument counting the slots it may
  visit; running out of fuel is the fault `diverge`.
* Dereferencing `NULL` and overrunning `char exp[128]` are faults.
* `printf` output is recorded as a list of structured events.
-/

namespace Watchpoint

/-- Ways in which the C program leaves defined behaviour (or never returns). -/
inductive Fault where
  | null_deref
  | overflow
  | diverge
  deriving DecidableEq, Repr

/-- The struct `watchpoint`: `int NO; struct watchpoint *next; char exp[128]; uint32_t old;`. -/
structure WP where
  NO : Int
  next : Option Nat
  exp : String
  old : Nat
  deriving DecidableEq, Repr

/-- The file-scope variables `wp_pool`, `head`, `free_`, `cur`. -/
structure State where
  wp_pool : Nat → WP
  head : Option Nat
  free_ : Option Nat
  cur : Option Nat

/-- Modelled from the spec: the execution states of `nemu_state.state`; the enum is declared
outside these sources. `NEMU_STOP` is the halt signal, `NEMU_QUIT` the quit state. -/
inductive NEMUState where
  | NEMU_RUNNING
  | NEMU_STOP
  | NEMU_END
  | NEMU_ABORT
  | NEMU_QUIT
  deriving DecidableEq, Repr

/-- One `printf` call of `watchpoint.c`, with the arguments it formats. -/
inductive Out where
  /-- The text "there is no such watchpoint!". -/
  | no_such_watchpoint
  /-- The text "The expression of watchpoint %d is invalid!". -/
  | invalid (NO : Int)
  /-- The line "Num:%d Expr:%s New Val:%u Old Val:%u". -/
  | changed (NO : Int) (exp : String) (res old : Nat)
  /-- The text "there is no watchpoint". -/
  | no_watchpoint
  /-- The table header "NO Exp Val". -/
  | header
  /-- One table row "%02d %10s %-10u". -/
  | row (NO : Int) (exp : String) (old : Nat)
  deriving DecidableEq, Repr

/-- The constant `NR_WP` of the source. -/
def NR_WP : Nat := 32

/-- Zero-initialised static storage: `wp_pool[NR_WP] = {}`, `head = NULL`, `free_ = NULL`,
and `cur` without initialiser. -/
def boot : State where
  wp_pool := fun _ => { NO := 0, next := none, exp := "", old := 0 }
  head := none
  free_ := none
  cur := none

/-- The assignment `p->next = v`. -/
def set_next (pool : Nat → WP) (p : Nat) (v : Option Nat) : Nat → WP :=
  Function.update pool p { pool p with next := v }

/-- The assignment `p->old = v` into a `uint32_t` field. -/
def set_old (pool : Nat → WP) (p : Nat) (v : Nat) : Nat → WP :=
  Function.update pool p { pool p with old := v % 2 ^ 32 }

/-- The call `strcpy(p->exp, e)`: the text and its terminator must fit `char exp[128]`. -/
def strcpy_exp (pool : Nat → WP) (p : Nat) (e : String) : Except Fault (Nat → WP) :=
  if e.utf8ByteSize < 128 then .ok (Function.update pool p { pool p with exp := e })
  else .error Fault.overflow

/-- The first `k` iterations of the `for` loop of `init_wp_pool` over a pool of `N` slots. -/
def init_wp_slots (N : Nat) : Nat → (Nat → WP) → Nat → WP
  | 0, pool => pool
  | k + 1, pool =>
    let pool1 := init_wp_slots N k pool
    Function.update pool1 k
      { pool1 k with NO := (k : Int), next := if k = N - 1 then none else some (k + 1), exp := "" }

/-- The function `init_wp_pool` for `NR_WP = N`. -/
def init_wp_pool (N : Nat) (s : State) : State :=
  { wp_pool := init_wp_slots N N s.wp_pool, head := none, free_ := some 0, cur := s.cur }

/-- The loop of `search_`: `while (tmp) { if (tmp->next == wp) break; tmp = tmp->next; }`. -/
def search_loop (pool : Nat → WP) (wp : Option Nat) : Nat → Option Nat → Except Fault (Option Nat)
  | _, none => .ok none
  | 0, some _ => .error Fault.diverge
  | fuel + 1, some t => if (pool t).next = wp then .ok (some t) else search_loop pool wp fuel (pool t).next

/-- The function `search_`: the first active slot whose `next` is `wp`, or `NULL`. -/
def search_ (fuel : Nat) (s : State) (wp : Option Nat) : Except Fault (Option Nat) :=
  search_loop s.wp_pool wp fuel s.head

/-- The function `new_wp`; the second component is the returned pointer. -/
def new_wp (exp : String) (s : State) : Except Fault (State × Option Nat) :=
  match s.free_ with
  | none => .ok (s, none)
  | some f =>
    match s.head with
    | none =>
      -- head = free_; free_ = free_->next; head->next = NULL; strcpy(head->exp, exp); cur = head;
      let free1 := (s.wp_pool f).next
      let pool1 := set_next s.wp_pool f none
      match strcpy_exp pool1 f exp with
      | .error e => .error e
      | .ok pool2 => .ok ({ wp_pool := pool2, head := some f, free_ := free1, cur := some f }, some f)
    | some h =>
      match s.cur with
      | none => .error Fault.null_deref
      | some c =>
        -- cur->next = free_; free_ = free_->next; cur = cur->next; cur->next = NULL; strcpy(cur->exp, exp);
        let pool1 := set_next s.wp_pool c (some f)
        let free1 := (pool1 f).next
        match (pool1 c).next with
        | none => .error Fault.null_deref
        | some c1 =>
          let pool2 := set_next pool1 c1 none
          match strcpy_exp pool2 c1 exp with
          | .error e => .error e
          | .ok pool3 => .ok ({ wp_pool := pool3, head := some h, free_ := free1, cur := some c1 }, some c1)

/-- The first loop of `free_wp`: `while (tmp) { if (tmp->NO == id) break; tmp = tmp->next; }`. -/
def find_NO (pool : Nat → WP) (id : Int) : Nat → Option Nat → Except Fault (Option Nat)
  | _, none => .ok none
  | 0, some _ => .error Fault.diverge
  | fuel + 1, some t => if (pool t).NO = id then .ok (some t) else find_NO pool id fuel (pool t).next

/-- The function `free_wp`, with what it prints. -/
def free_wp (fuel : Nat) (id : Int) (s : State) : Except Fault (State × List Out) :=
  match s.free_ with
  | none => .ok (s, [])
  | some _ =>
    match find_NO s.wp_pool id fuel s.head with
    | .error e => .error e
    | .ok none => .ok (s, [Out.no_such_watchpoint])
    | .ok (some t) =>
      if some t = s.head then
        -- head = head->next; tmp->next = free_; free_ = tmp;
        .ok ({ wp_pool := set_next s.wp_pool t s.free_, head := (s.wp_pool t).next,
               free_ := some t, cur := s.cur }, [])
      else if some t = s.cur then
        -- tmp->next = free_; free_ = tmp; cur = search_(tmp); cur->next = NULL;
        let s1 : State := { wp_pool := set_next s.wp_pool t s.free_, head := s.head,
                            free_ := some t, cur := s.cur }
        match search_ fuel s1 (some t) with
        | .error e => .error e
        | .ok none => .error Fault.null_deref
        | .ok (some c) => .ok ({ s1 with wp_pool := set_next s1.wp_pool c none, cur := some c }, [])
      else
        -- search_(tmp)->next = tmp->next; tmp->next = free_; free_ = tmp;
        match search_ fuel s (some t) with
        | .error e => .error e
        | .ok none => .error Fault.null_deref
        | .ok (some p) =>
          let pool1 := set_next s.wp_pool p (s.wp_pool t).next
          .ok ({ wp_pool := set_next pool1 t s.free_, head := s.head, free_ := some t,
                 cur := s.cur }, [])

/-- The loop of `check_wp`, for the external evaluator `expr` given as `ev`
(`none` is `success = false`). It threads the pool, `nemu_state.state` and the output. -/
def check_loop (ev : String → Option Nat) :
    Nat → Option Nat → (Nat → WP) × NEMUState × List Out → Except Fault ((Nat → WP) × NEMUState × List Out)
  | _, none, acc => .ok acc
  | 0, some _, _ => .error Fault.diverge
  | fuel + 1, some t, (pool, st, out) =>
    match ev (pool t).exp with
    | none => check_loop ev fuel (pool t).next (pool, st, out ++ [Out.invalid (pool t).NO])
    | some res =>
      if res ≠ (pool t).old then
        let pool1 := set_old pool t res
        check_loop ev fuel (pool1 t).next
          (pool1, NEMUState.NEMU_STOP, out ++ [Out.changed (pool t).NO (pool t).exp res (pool t).old])
      else check_loop ev fuel (pool t).next (pool, st, out)

/-- The function `check_wp`: the new pool state, the new `nemu_state.state`, the output. -/
def check_wp (fuel : Nat) (ev : String → Option Nat) (s : State) (st : NEMUState) :
    Except Fault (State × NEMUState × List Out) :=
  match check_loop ev fuel s.head (s.wp_pool, st, []) with
  | .error e => .error e
  | .ok (pool, st1, out) => .ok ({ s with wp_pool := pool }, st1, out)

/-- The loop of `print_wp`: one row per slot. -/
def print_rows (pool : Nat → WP) : Nat → Option Nat → Except Fault (List Out)
  | _, none => .ok []
  | 0, some _ => .error Fault.diverge
  | fuel + 1, some t =>
    match print_rows pool fuel (pool t).next with
    | .error e => .error e
    | .ok rows => .ok (Out.row (pool t).NO (pool t).exp (pool t).old :: rows)

/-- The function `print_wp`. -/
def print_wp (fuel : Nat) (s : State) : Except Fault (List Out) :=
  match s.head with
  | none => .ok [Out.no_watchpoint]
  | some _ =>
    match print_rows s.wp_pool fuel s.head with
    | .error e => .error e
    | .ok rows => .ok (Out.header :: rows)


/-- `Seg pool p l q`: following `next` from the pointer `p` visits exactly the slots of `l`,
in that order, and then arrives at the pointer `q`. -/
def Seg (pool : Nat → WP) : Option Nat → List Nat → Option Nat → Prop
  | p, [], q => p = q
  | p, x :: xs, q => p = some x ∧ Seg pool (pool x).next xs q

instance Seg.decide (pool : Nat → WP) : (p : Option Nat) → (l : List Nat) → (q : Option Nat) →
    Decidable (Seg pool p l q)
  | p, [], q => inferInstanceAs (Decidable (p = q))
  | p, x :: xs, q =>
    have := Seg.decide pool (pool x).next xs q
    inferInstanceAs (Decidable (p = some x ∧ Seg pool (pool x).next xs q))

/-- The pool invariant, for a pool of `N` slots whose active list visits `act` and whose free
list visits `fr`. -/
structure PoolInv (N : Nat) (s : State) (act fr : List Nat) : Prop where
  act_seg : Seg s.wp_pool s.head act none
  free_seg : Seg s.wp_pool s.free_ fr none
  perm : (act ++ fr).Perm (List.range N)
  NO_eq : ∀ i, i < N → (s.wp_pool i).NO = (i : Int)
  cur_last : ∀ x, act.getLast? = some x → s.cur = some x

/-- What one iteration of the `check_wp` loop prints for the slot `w`. -/
def scan_report (ev : String → Option Nat) (w : WP) : Option Out :=
  match ev w.exp with
  | none => some (Out.invalid w.NO)
  | some res => if res ≠ w.old then some (Out.changed w.NO w.exp res w.old) else none

/-- What one iteration of the `check_wp` loop leaves in the slot `w`. -/
def scan_slot (ev : String → Option Nat) (w : WP) : WP :=
  match ev w.exp with
  | none => w
  | some res => if res ≠ w.old then { w with old := res % 2 ^ 32 } else w

/-- Whether the slot `w` has changed: its expression evaluates, to a value other than `old`. -/
def scan_hit (ev : String → Option Nat) (w : WP) : Bool :=
  match ev w.exp with
  | none => false
  | some res => decide (res ≠ w.old)

/-- The table row `print_wp` prints for the slot `w`. -/
def row_of (w : WP) : Out := Out.row w.NO w.exp w.old

/-- The pool states the debugger can be in: `init_wp_pool` runs once on the zero-initialised
statics, and then `new_wp`, `free_wp` and `check_wp` calls that return. -/
inductive Reachable (N : Nat) : State → Prop where
  | init : Reachable N (init_wp_pool N boot)
  | new_wp {s s1 : State} {e : String} {r : Option Nat} :
      Reachable N s → new_wp e s = .ok (s1, r) → Reachable N s1
  | free_wp {s s1 : State} {fuel : Nat} {id : Int} {o : List Out} :
      Reachable N s → free_wp fuel id s = .ok (s1, o) → Reachable N s1
  | check_wp {s s1 : State} {fuel : Nat} {ev : String → Option Nat} {st st1 : NEMUState}
      {o : List Out} :
      Reachable N s → check_wp fuel ev s st = .ok (s1, st1, o) → Reachable N s1

/-- One call into the watchpoint pool made by the debugger commands `w` and `d`. -/
inductive Call where
  | new_wp (e : String)
  | free_wp (id : Int)

/-- A sequence of `new_wp` and `free_wp` calls, run in order. -/
def run_calls (fuel : Nat) : List Call → State → Except Fault State
  | [], s => .ok s
  | Call.new_wp e :: cs, s =>
    match new_wp e s with
    | .error f => .error f
    | .ok (s1, _) => run_calls fuel cs s1
  | Call.free_wp id :: cs, s =>
    match free_wp fuel id s with
    | .error f => .error f
    | .ok (s1, _) => run_calls fuel cs s1

/-- Consecutive `new_wp` calls, one per expression, with the pointers they return. -/
def new_wp_seq : List String → State → Except Fault (State × List (Option Nat))
  | [], s => .ok (s, [])
  | e :: es, s =>
    match new_wp e s with
    | .error f => .error f
    | .ok (s1, r) =>
      match new_wp_seq es s1 with
      | .error f => .error f
      | .ok (s2, rs) => .ok (s2, r :: rs)

/-- Consecutive `free_wp` calls, one per id, with everything they print. -/
def free_wp_seq (fuel : Nat) : List Int → State → Except Fault (State × List Out)
  | [], s => .ok (s, [])
  | id :: ids, s =>
    match free_wp fuel id s with
    | .error f => .error f
    | .ok (s1, o) =>
      match free_wp_seq fuel ids s1 with
      | .error f => .error f
      | .ok (s2, os) => .ok (s2, o ++ os)

/-- Modelled from the spec: the type `word_t` of the evaluator's numeric result is declared
outside these sources; it is taken to be a 32-bit word, the width of the field `old` and of
the `%u` conversions that print it. -/
def WordEval (ev : String → Option Nat) : Prop :=
  ∀ e v, ev e = some v → v < 2 ^ 32

/-- The state left by a call that returned (the boot state if it faulted). -/
def state_of {α : Type} (r : Except Fault (State × α)) : State :=
  match r with
  | .ok (s, _) => s
  | .error _ => boot

/-- A sample evaluator: "x" is 5, "y" is 7, "bad" does not evaluate, anything else is 0. -/
def sample_ev (e : String) : Option Nat :=
  if e = "x" then some 5 else if e = "y" then some 7 else if e = "bad" then none else some 0

/-- Sample state: a pool of 3 slots after `w x`. -/
def sample_x : State := state_of (new_wp "x" (init_wp_pool 3 boot))

/-- Sample state: a pool of 3 slots after `w x`, `w y`. -/
def sample_xy : State := state_of (new_wp "y" sample_x)

/-- Sample state: `sample_xy` after one scan with `sample_ev`. -/
def sample_scanned : State := state_of (check_wp 3 sample_ev sample_xy NEMUState.NEMU_RUNNING)

/-- Sample state: `sample_scanned` after `d 0`. -/
def sample_freed : State := state_of (free_wp 3 0 sample_scanned)

/-- Sample state: a pool of 3 slots after `w x`, `w bad`, `w y`. -/
def sample_bad : State :=
  state_of (new_wp "y" (state_of (new_wp "bad" sample_x)))

/-- A sample evaluator that returns, for "x" and "y", the values `sample_ev` leaves in `old`. -/
def steady_ev (e : String) : Option Nat :=
  if e = "x" then some 5 else some 7


/-! ## The command loop of `sdb.c`

The line and the C strings are lists of characters (the delimiter `" "` is one byte, so
splitting characters and splitting bytes agree). A handler receives the `args` pointer
(`none` is `NULL`) and the position `strtok` has saved, from which `strtok(NULL, " ")`
continues. External collaborators are the fields of `Ext`.
-/

/-- The variables `sdb.c` shares with the watchpoint pool: the pool itself and
`nemu_state.state`. -/
structure Monitor where
  wp : State
  nemu_state : NEMUState

/-- Modelled from the spec: the collaborators declared outside these sources. `cpu_exec` is
the execution engine (it may scan the watchpoints and set `nemu_state`), `isa_reg_display` the
register display, `vaddr_read` the memory-read primitive and `expr` the expression evaluator;
what the first two print is kept as text. -/
structure Ext where
  cpu_exec : Nat → Monitor → Monitor × List String
  isa_reg_display : List String
  vaddr_read : Int → Nat → Nat
  expr : String → Option Nat

/-- One `printf` call of `sdb.c` with the arguments it formats, or output of the pool or of a
collaborator. -/
inductive Print where
  /-- Output of `watchpoint.c`. -/
  | wp (o : Out)
  /-- Output of `cpu_exec` or `isa_reg_display`. -/
  | external (text : String)
  /-- The text "Usage: info r/w" of `cmd_info`. -/
  | usage_info
  /-- The header "Address Hexadecimal Decimal" of `cmd_x`. -/
  | x_header
  /-- The first `printf` of a `cmd_x` row: the address and four bytes in hexadecimal. -/
  | x_hex (addr : Int) (b0 b1 b2 b3 : Nat)
  /-- The second `printf` of a `cmd_x` row: the four bytes in decimal. -/
  | x_dec (b0 b1 b2 b3 : Nat)
  /-- The text "the result of the given expression is NOT hexadecimal!" of `cmd_x`. -/
  | x_not_hex
  /-- The text "Invalid expression!" of `cmd_p`. -/
  | invalid_expression
  /-- The line "> %u" of `cmd_p`. -/
  | value (v : Nat)
  /-- The text "watchpoint poll is full!" of `cmd_w`. -/
  | pool_full
  /-- The line "%s - %s" of `cmd_help`. -/
  | help_line (name description : String)
  /-- The line "Unknown command '%s'" printed by `cmd_help` for its argument. -/
  | help_unknown (arg : String)
  /-- The line "Unknown command '%s'" printed by `sdb_mainloop` for the command token. -/
  | unknown_command (cmd : String)
  deriving DecidableEq

/-- The handlers named in `cmd_table`. -/
inductive Cmd where
  | help | c | q | si | info | x | p | w | d
  deriving DecidableEq, Repr

/-- One entry of `cmd_table`: name, description and handler. -/
structure Entry where
  name : String
  description : String
  handler : Cmd

/-- The array `cmd_table` of `sdb.c`. -/
def cmd_table : List Entry :=
  [ ⟨"help", "Display information about all supported commands", Cmd.help⟩,
    ⟨"c", "Continue the execution of the program", Cmd.c⟩,
    ⟨"q", "Exit NEMU", Cmd.q⟩,
    ⟨"si", "Single-step through N instructions, when N is not givern, just 1", Cmd.si⟩,
    ⟨"info", "Print register status or wachpoint information", Cmd.info⟩,
    ⟨"x", "Evaluate the expression, use the result as the start memory address, output N consecutive 4-bytes in hexadecimal", Cmd.x⟩,
    ⟨"p", "Evaluate the expression", Cmd.p⟩,
    ⟨"w", "Suspend program when the value of the expression changed", Cmd.w⟩,
    ⟨"d", "Delete the watchpoint N", Cmd.d⟩ ]

/-- The libc call `strtok(s, " ")` on the text `s` (the whole line on the first call, the saved
position on a call with `NULL`): the token, if any, and the position saved for the next call.
Leading spaces are skipped, the token ends at the first space, and that one space is
overwritten. -/
def strtok (s : List Char) : Option (List Char) × List Char :=
  match s.dropWhile (fun c => c == ' ') with
  | [] => (none, [])
  | c :: cs =>
    (some ((c :: cs).takeWhile (fun c => c != ' ')),
     ((c :: cs).dropWhile (fun c => c != ' ')).drop 1)

/-- The libc predicate `isspace` in the C locale. -/
def is_space (c : Char) : Bool :=
  c == ' ' || (9 ≤ c.toNat && c.toNat ≤ 13)

/-- The value of a digit in a base up to 16, if `c` is one. -/
def digit_value (base : Nat) (c : Char) : Option Nat :=
  let v :=
    if 48 ≤ c.toNat ∧ c.toNat ≤ 57 then c.toNat - 48
    else if 97 ≤ c.toNat ∧ c.toNat ≤ 102 then c.toNat - 87
    else if 65 ≤ c.toNat ∧ c.toNat ≤ 70 then c.toNat - 55
    else 16
  if v < base then some v else none

/-- The number written by the longest prefix of digits of `s`, continuing from `acc`. -/
def digits_value (base : Nat) : List Char → Nat → Nat
  | [], acc => acc
  | c :: cs, acc =>
    match digit_value base c with
    | some v => digits_value base cs (acc * base + v)
    | none => acc

/-- Conversion of an integer to the 32-bit `int`. -/
def to_int (v : Int) : Int := (v + 2 ^ 31) % 2 ^ 32 - 2 ^ 31

/-- The libc call `strtol(s, NULL, base)` for base 10 or 16 with a 64-bit `long`: white space,
an optional sign, for base 16 an optional "0x", then digits; 0 when there is no digit; values
out of range are clamped. -/
def strtol (s : List Char) (base : Nat) : Int :=
  let body (t : List Char) : Nat :=
    match t with
    | '0' :: x :: h :: r =>
      if base = 16 ∧ (x = 'x' ∨ x = 'X') ∧ (digit_value 16 h).isSome then digits_value 16 (h :: r) 0
      else digits_value base t 0
    | _ => digits_value base t 0
  let v : Int :=
    match s.dropWhile is_space with
    | '-' :: t => - (body t : Int)
    | '+' :: t => (body t : Int)
    | t => (body t : Int)
  max (-(2 ^ 63)) (min v (2 ^ 63 - 1))

/-- The libc call `atoi(s)`, that is `(int) strtol(s, NULL, 10)`. -/
def atoi (s : List Char) : Int := to_int (strtol s 10)

/-- The handler `cmd_c`: `cpu_exec(-1)` with the argument converted to `uint64_t`. -/
def cmd_c (ext : Ext) (m : Monitor) : Except Fault (Monitor × Int × List Print) :=
  let r := ext.cpu_exec (2 ^ 64 - 1) m
  .ok (r.1, 0, r.2.map Print.external)

/-- The handler `cmd_q`. -/
def cmd_q (m : Monitor) : Except Fault (Monitor × Int × List Print) :=
  .ok ({ m with nemu_state := NEMUState.NEMU_QUIT }, -1, [])

/-- The handler `cmd_si`: `n` is 1, or `atoi(args)` converted to `uint64_t`. -/
def cmd_si (ext : Ext) (args : Option String) (m : Monitor) :
    Except Fault (Monitor × Int × List Print) :=
  let n : Nat :=
    match args with
    | none => 1
    | some a => Int.toNat (atoi a.toList % 2 ^ 64)
  let r := ext.cpu_exec n m
  .ok (r.1, 0, r.2.map Print.external)

/-- The handler `cmd_info`. -/
def cmd_info (ext : Ext) (fuel : Nat) (args : Option String) (m : Monitor) :
    Except Fault (Monitor × Int × List Print) :=
  match args with
  | none => .ok (m, 0, [Print.usage_info])
  | some a =>
    if a = "r" then .ok (m, 0, ext.isa_reg_display.map Print.external)
    else if a = "w" then
      match print_wp fuel m.wp with
      | .error f => .error f
      | .ok out => .ok (m, 0, out.map Print.wp)
    else .ok (m, 0, [])

/-- The loop of `cmd_x`: `cnt` rows of four bytes each, `addr += 4` after every row. -/
def x_rows (ext : Ext) : Nat → Int → List Print
  | 0, _ => []
  | cnt + 1, addr =>
    let b0 := ext.vaddr_read addr 1
    let b1 := ext.vaddr_read (to_int (addr + 1)) 1
    let b2 := ext.vaddr_read (to_int (addr + 2)) 1
    let b3 := ext.vaddr_read (to_int (addr + 3)) 1
    Print.x_hex addr b0 b1 b2 b3 :: Print.x_dec b0 b1 b2 b3 :: x_rows ext cnt (to_int (addr + 4))

/-- The handler `cmd_x`; it ignores `args` and takes its two tokens with `strtok(NULL, " ")`. -/
def cmd_x (ext : Ext) (saved : List Char) (m : Monitor) :
    Except Fault (Monitor × Int × List Print) :=
  match strtok saved with
  | (none, _) => .ok (m, 0, [])
  | (some cnt_str, saved1) =>
    let cnt : Nat := Int.toNat (atoi cnt_str % 2 ^ 32)
    match strtok saved1 with
    | (none, _) => .ok (m, 0, [])
    | (some addr_str, _) =>
      match addr_str with
      | '0' :: 'x' :: hex =>
        .ok (m, 0, Print.x_header :: x_rows ext cnt (to_int (strtol hex 16)))
      | _ => .ok (m, 0, [Print.x_not_hex])

/-- The handler `cmd_p`. -/
def cmd_p (ext : Ext) (args : Option String) (m : Monitor) :
    Except Fault (Monitor × Int × List Print) :=
  match args with
  | none => .ok (m, 0, [])
  | some a =>
    match ext.expr a with
    | none => .ok (m, 0, [Print.invalid_expression])
    | some val => .ok (m, 0, [Print.value val])

/-- The handler `cmd_w`. -/
def cmd_w (args : Option String) (m : Monitor) : Except Fault (Monitor × Int × List Print) :=
  match args with
  | none => .ok (m, 0, [])
  | some a =>
    match new_wp a m.wp with
    | .error f => .error f
    | .ok (s1, none) => .ok ({ m with wp := s1 }, 0, [Print.pool_full])
    | .ok (s1, some _) => .ok ({ m with wp := s1 }, 0, [])

/-- The handler `cmd_d`: `free_wp(atoi(args))`. -/
def cmd_d (fuel : Nat) (args : Option String) (m : Monitor) :
    Except Fault (Monitor × Int × List Print) :=
  match args with
  | none => .ok (m, 0, [])
  | some a =>
    match free_wp fuel (atoi a.toList) m.wp with
    | .error f => .error f
    | .ok (s1, out) => .ok ({ m with wp := s1 }, 0, out.map Print.wp)

/-- The second loop of `cmd_help`: the description of the entry named `arg`, or the
unknown-command line. -/
def help_loop (arg : String) : List Entry → List Print
  | [] => [Print.help_unknown arg]
  | e :: es => if arg = e.name then [Print.help_line e.name e.description] else help_loop arg es

/-- The handler `cmd_help`; it ignores `args` and takes its token with `strtok(NULL, " ")`. -/
def cmd_help (saved : List Char) (m : Monitor) : Except Fault (Monitor × Int × List Print) :=
  match (strtok saved).1 with
  | none => .ok (m, 0, cmd_table.map (fun e => Print.help_line e.name e.description))
  | some arg => .ok (m, 0, help_loop (String.mk arg) cmd_table)

/-- The call `cmd_table[i].handler(args)`. -/
def run_handler (ext : Ext) (fuel : Nat) (hd : Cmd) (args : Option String) (saved : List Char)
    (m : Monitor) : Except Fault (Monitor × Int × List Print) :=
  match hd with
  | Cmd.help => cmd_help saved m
  | Cmd.c => cmd_c ext m
  | Cmd.q => cmd_q m
  | Cmd.si => cmd_si ext args m
  | Cmd.info => cmd_info ext fuel args m
  | Cmd.x => cmd_x ext saved m
  | Cmd.p => cmd_p ext args m
  | Cmd.w => cmd_w args m
  | Cmd.d => cmd_d fuel args m

/-- The function `rl_gets` applied to what `readline` returned (`none` is `NULL`): an empty
line or end of input becomes "si". -/
def rl_gets (line_read : Option String) : String :=
  match line_read with
  | none => "si"
  | some l => if l = "" then "si" else l

/-- What `sdb_mainloop` does with a handler's return value: `if (handler(args) < 0) return;`,
otherwise `break`. The flag says whether `sdb_mainloop` returned. -/
def after_handler (r : Except Fault (Monitor × Int × List Print)) :
    Except Fault (Monitor × Bool × List Print) :=
  match r with
  | .error f => .error f
  | .ok (m1, ret, out) => .ok (m1, decide (ret < 0), out)

/-- The table search of `sdb_mainloop`: the handler of the first entry named `cmd` is called;
without such an entry the unknown-command line is printed. -/
def lookup_loop (ext : Ext) (fuel : Nat) (cmd : String) (args : Option String)
    (saved : List Char) (m : Monitor) : List Entry → Except Fault (Monitor × Bool × List Print)
  | [] => .ok (m, false, [Print.unknown_command cmd])
  | e :: es =>
    if cmd = e.name then after_handler (run_handler ext fuel e.handler args saved m)
    else lookup_loop ext fuel cmd args saved m es

/-- The split made by `sdb_mainloop`: the command token, the `args` pointer and the position
saved by `strtok`; `none` when the line has no token. `args` is what follows the one space
that ended the token, and `NULL` when nothing follows it. -/
def split_line (str : String) : Option (String × Option String × List Char) :=
  match strtok str.toList with
  | (none, _) => none
  | (some cmd, saved) =>
    some (String.mk cmd, if saved = [] then none else some (String.mk saved), saved)

/-- One iteration of the `for` loop of `sdb_mainloop` on what `readline` returned: the new
monitor state, whether the function returned, and the output. -/
def mainloop_step (ext : Ext) (fuel : Nat) (line_read : Option String) (m : Monitor) :
    Except Fault (Monitor × Bool × List Print) :=
  match split_line (rl_gets line_read) with
  | none => .ok (m, false, [])
  | some (cmd, args, saved) => lookup_loop ext fuel cmd args saved m cmd_table

/-- A sample collaborator set: nothing runs, nothing is printed, memory reads 0. -/
def sample_ext : Ext where
  cpu_exec := fun _ m => (m, [])
  isa_reg_display := []
  vaddr_read := fun _ _ => 0
  expr := sample_ev

/-! ## Lemmas and theorems -/
theorem Seg_append {pool : Nat → WP} {a b : List Nat} {p q : Option Nat} :
    Seg pool p (a ++ b) q ↔ ∃ m, Seg pool p a m ∧ Seg pool m b q := by
  induction a generalizing p with
  | nil => simp [Seg]
  | cons x xs ih =>
    show (p = some x ∧ Seg pool (pool x).next (xs ++ b) q) ↔
      ∃ m, (p = some x ∧ Seg pool (pool x).next xs m) ∧ Seg pool m b q
    rw [ih]
    constructor
    · rintro ⟨hp, m, h1, h2⟩
      exact ⟨m, ⟨hp, h1⟩, h2⟩
    · rintro ⟨m, ⟨hp, h1⟩, h2⟩
      exact ⟨hp, m, h1, h2⟩

theorem Seg_frame {pool pool1 : Nat → WP} {l : List Nat} {p q : Option Nat}
    (h : ∀ i, i ∈ l → (pool1 i).next = (pool i).next) (hs : Seg pool p l q) :
    Seg pool1 p l q := by
  induction l generalizing p with
  | nil => exact hs
  | cons x xs ih =>
    obtain ⟨hp, hx⟩ := hs
    refine ⟨hp, ?_⟩
    rw [h x (List.mem_cons_self x xs)]
    exact ih (fun i hi => h i (List.mem_cons_of_mem x hi)) hx

theorem Seg_unique {pool : Nat → WP} {l1 l2 : List Nat} {p : Option Nat}
    (h1 : Seg pool p l1 none) (h2 : Seg pool p l2 none) : l1 = l2 := by
  induction l1 generalizing p l2 with
  | nil =>
    cases l2 with
    | nil => rfl
    | cons y ys =>
      have e1 : p = none := h1
      have e2 : p = some y := h2.1
      rw [e1] at e2
      cases e2
  | cons x xs ih =>
    cases l2 with
    | nil =>
      have e1 : p = some x := h1.1
      have e2 : p = none := h2
      rw [e1] at e2
      cases e2
    | cons y ys =>
      have e1 : p = some x := h1.1
      have e2 : p = some y := h2.1
      rw [e1] at e2
      cases e2
      rw [ih h1.2 h2.2]

theorem init_wp_slots_apply (N k : Nat) (pool : Nat → WP) (i : Nat) :
    init_wp_slots N k pool i =
      if i < k then
        { pool i with NO := (i : Int), next := if i = N - 1 then none else some (i + 1), exp := "" }
      else pool i := by
  induction k with
  | zero => simp [init_wp_slots]
  | succ k ih =>
    simp only [init_wp_slots]
    by_cases hik : i = k
    · subst hik
      simp [ih]
    · rw [Function.update_noteq hik, ih]
      by_cases hlt : i < k
      · have : i < k + 1 := by omega
        simp [hlt, this]
      · have : ¬ i < k + 1 := by omega
        simp [hlt, this]

theorem init_seg (N : Nat) (pool : Nat → WP) (n j : Nat) (h : j + n = N) :
    Seg (init_wp_slots N N pool) (if n = 0 then none else some j) (List.range' j n) none := by
  induction n generalizing j with
  | zero => simp [Seg]
  | succ n ih =>
    rw [List.range'_succ]
    refine ⟨by simp, ?_⟩
    have hj : j < N := by omega
    have hnext : (init_wp_slots N N pool j).next = if n = 0 then none else some (j + 1) := by
      rw [init_wp_slots_apply]
      simp only [hj, if_true]
      by_cases hn : n = 0
      · have : j = N - 1 := by omega
        simp [hn, this]
      · have : ¬ j = N - 1 := by omega
        simp [hn, this]
    rw [hnext]
    exact ih (j + 1) (by omega)

theorem init_inv (N : Nat) (hN : 0 < N) (s0 : State) :
    PoolInv N (init_wp_pool N s0) [] (List.range N) where
  act_seg := rfl
  free_seg := by
    have h := init_seg N s0.wp_pool N 0 (by omega)
    have hN0 : ¬ N = 0 := by omega
    simp only [hN0, if_false] at h
    rw [List.range_eq_range']
    exact h
  perm := by simp
  NO_eq := by
    intro i hi
    simp [init_wp_pool, init_wp_slots_apply, hi]
  cur_last := by simp


theorem PoolInv.nodup {N : Nat} {s : State} {act fr : List Nat} (h : PoolInv N s act fr) :
    (act ++ fr).Nodup :=
  h.perm.nodup_iff.mpr (List.nodup_range N)

theorem PoolInv.lt {N : Nat} {s : State} {act fr : List Nat} (h : PoolInv N s act fr)
    {i : Nat} (hi : i ∈ act ++ fr) : i < N :=
  List.mem_range.mp (h.perm.mem_iff.mp hi)

theorem new_wp_full {N : Nat} {s : State} {act : List Nat} (h : PoolInv N s act [])
    (e : String) : new_wp e s = .ok (s, none) := by
  have hf : s.free_ = none := h.free_seg
  simp [new_wp, hf]

theorem new_wp_spec {N : Nat} {s : State} {act fr : List Nat} {f : Nat}
    (h : PoolInv N s act (f :: fr)) (e : String) (he : e.utf8ByteSize < 128) :
    ∃ s1, new_wp e s = .ok (s1, some f) ∧ PoolInv N s1 (act ++ [f]) fr ∧
      ∀ i, (s1.wp_pool i).NO = (s.wp_pool i).NO ∧ (s1.wp_pool i).old = (s.wp_pool i).old ∧
        (s1.wp_pool i).exp = if i = f then e else (s.wp_pool i).exp := by
  obtain ⟨hf, hfr⟩ := h.free_seg
  have hnd := h.nodup
  have hperm := h.perm
  rcases List.eq_nil_or_concat act with hact | ⟨a, c, hact⟩
  · subst hact
    have hh : s.head = none := h.act_seg
    simp only [new_wp, hf, hh, strcpy_exp, he, if_true]
    refine ⟨_, rfl, ?_, ?_⟩
    · have hffr : f ∉ fr := by
        simp only [List.nil_append, List.nodup_cons] at hnd
        exact hnd.1
      refine ⟨?_, ?_, ?_, ?_, ?_⟩
      · show Seg _ (some f) [f] none
        refine ⟨rfl, ?_⟩
        simp [Seg, set_next]
      · show Seg _ (s.wp_pool f).next fr none
        refine Seg_frame ?_ hfr
        intro i hi
        have : i ≠ f := fun hif => hffr (hif ▸ hi)
        simp [set_next, Function.update_noteq this]
      · simpa using hperm
      · intro i hi
        have := h.NO_eq i hi
        by_cases hif : i = f
        · subst hif
          simpa [set_next] using this
        · simpa [set_next, Function.update_noteq hif] using this
      · intro x hx
        simp at hx
        show some f = some x
        rw [hx]
    · intro i
      by_cases hif : i = f
      · subst hif
        simp [set_next]
      · simp [set_next, Function.update_noteq hif, hif]
  · rw [List.concat_eq_append] at hact
    subst hact
    have hseg := h.act_seg
    have hc : s.cur = some c := h.cur_last c (by simp)
    obtain ⟨hd, hhd⟩ : ∃ hd, s.head = some hd := by
      cases a with
      | nil => exact ⟨c, hseg.1⟩
      | cons y ys => exact ⟨y, hseg.1⟩
    have hcf : c ≠ f := by
      intro hcf
      subst hcf
      have := List.nodup_append.mp hnd
      exact this.2.2 (show c ∈ a ++ [c] by simp) (show c ∈ c :: fr by simp)
    have hfc : f ≠ c := fun h => hcf h.symm
    simp only [new_wp, hf, hhd, hc, strcpy_exp, he, if_true, set_next, Function.update_same,
      Function.update_noteq hfc]
    refine ⟨_, rfl, ?_, ?_⟩
    · have hdis := (List.nodup_append.mp hnd).2.2
      have hnda := (List.nodup_append.mp hnd).1
      have hndf := (List.nodup_append.mp hnd).2.1
      have hfa : f ∉ a := fun hfa => hdis (show f ∈ a ++ [c] by simp [hfa]) (show f ∈ f :: fr by simp)
      have hca : c ∉ a := by
        intro hca
        have := List.nodup_append.mp hnda
        exact this.2.2 hca (show c ∈ [c] by simp)
      have hffr : f ∉ fr := (List.nodup_cons.mp hndf).1
      have hcfr : c ∉ fr := fun hcfr => hdis (show c ∈ a ++ [c] by simp) (show c ∈ f :: fr by simp [hcfr])
      obtain ⟨m, hsa, hm, -⟩ := Seg_append.mp hseg
      refine ⟨?_, ?_, ?_, ?_, ?_⟩
      · show Seg _ (some hd) ((a ++ [c]) ++ [f]) none
        rw [← hhd, List.append_assoc]
        refine Seg_append.mpr ⟨m, Seg_frame ?_ hsa, ?_⟩
        · intro i hi
          have h1 : i ≠ f := fun e1 => hfa (e1 ▸ hi)
          have h2 : i ≠ c := fun e1 => hca (e1 ▸ hi)
          simp [Function.update_noteq h1, Function.update_noteq h2]
        · refine ⟨hm, ?_, ?_⟩
          · simp [Function.update_noteq hcf]
          · simp [Seg]
      · show Seg _ (s.wp_pool f).next fr none
        refine Seg_frame ?_ hfr
        intro i hi
        have h1 : i ≠ f := fun e1 => hffr (e1 ▸ hi)
        have h2 : i ≠ c := fun e1 => hcfr (e1 ▸ hi)
        simp [Function.update_noteq h1, Function.update_noteq h2]
      · refine List.Perm.trans ?_ hperm
        simp [List.append_assoc]
      · intro i hi
        have := h.NO_eq i hi
        by_cases hif : i = f
        · subst hif
          simpa using this
        · by_cases hic : i = c
          · subst hic
            simpa [Function.update_noteq hif] using this
          · simpa [Function.update_noteq hif, Function.update_noteq hic] using this
      · intro x hx
        simp at hx
        show some f = some x
        rw [hx]
    · intro i
      by_cases hif : i = f
      · subst hif
        simp
      · by_cases hic : i = c
        · subst hic
          simp [Function.update_noteq hif, hif]
        · simp [Function.update_noteq hif, Function.update_noteq hic, hif]

theorem find_NO_none {pool : Nat → WP} {id : Int} {l : List Nat} {p : Option Nat} {fuel : Nat}
    (hs : Seg pool p l none) (hno : ∀ i, i ∈ l → (pool i).NO ≠ id) (hfuel : l.length ≤ fuel) :
    find_NO pool id fuel p = .ok none := by
  induction l generalizing p fuel with
  | nil =>
    have hp : p = none := hs
    subst hp
    cases fuel <;> rfl
  | cons x xs ih =>
    obtain ⟨hp, hx⟩ := hs
    subst hp
    cases fuel with
    | zero => simp at hfuel
    | succ k =>
      simp only [find_NO, hno x (List.mem_cons_self x xs), if_false]
      exact ih hx (fun i hi => hno i (List.mem_cons_of_mem x hi)) (by simpa using hfuel)

theorem find_NO_some {pool : Nat → WP} {id : Int} {a b : List Nat} {t : Nat} {p q : Option Nat}
    {fuel : Nat} (hs : Seg pool p (a ++ t :: b) q) (hno : ∀ i, i ∈ a → (pool i).NO ≠ id)
    (ht : (pool t).NO = id) (hfuel : a.length + 1 ≤ fuel) :
    find_NO pool id fuel p = .ok (some t) := by
  induction a generalizing p fuel with
  | nil =>
    have hp : p = some t := hs.1
    subst hp
    cases fuel with
    | zero => simp at hfuel
    | succ k => simp [find_NO, ht]
  | cons x xs ih =>
    have hp : p = some x := hs.1
    have hx : Seg pool (pool x).next (xs ++ t :: b) q := hs.2
    subst hp
    cases fuel with
    | zero => simp at hfuel
    | succ k =>
      simp only [find_NO, hno x (List.mem_cons_self x xs), if_false]
      exact ih hx (fun i hi => hno i (List.mem_cons_of_mem x hi)) (by simpa using hfuel)

theorem search_loop_spec {pool : Nat → WP} {a : List Nat} {x : Nat} {wp p : Option Nat}
    {fuel : Nat} (hs : Seg pool p (a ++ [x]) wp) (hno : ∀ i, i ∈ a → (pool i).next ≠ wp)
    (hfuel : a.length + 1 ≤ fuel) :
    search_loop pool wp fuel p = .ok (some x) := by
  induction a generalizing p fuel with
  | nil =>
    have hp : p = some x := hs.1
    have hx : (pool x).next = wp := hs.2
    subst hp
    cases fuel with
    | zero => simp at hfuel
    | succ k => simp [search_loop, hx]
  | cons y ys ih =>
    have hp : p = some y := hs.1
    have hy : Seg pool (pool y).next (ys ++ [x]) wp := hs.2
    subst hp
    cases fuel with
    | zero => simp at hfuel
    | succ k =>
      simp only [search_loop, hno y (List.mem_cons_self y ys), if_false]
      exact ih hy (fun i hi => hno i (List.mem_cons_of_mem y hi)) (by simpa using hfuel)

/-- In a segment without repetition that continues to `t`, only the last slot points at `t`. -/
theorem Seg_next_ne {pool : Nat → WP} {a : List Nat} {x t : Nat} {p : Option Nat}
    (hs : Seg pool p (a ++ [x]) (some t)) (hnd : (a ++ [x]).Nodup) (ht : t ∉ a ++ [x]) :
    ∀ i, i ∈ a → (pool i).next ≠ some t := by
  induction a generalizing p with
  | nil => simp
  | cons y ys ih =>
    have hy : Seg pool (pool y).next (ys ++ [x]) (some t) := hs.2
    have hnd1 : (ys ++ [x]).Nodup := (List.nodup_cons.mp hnd).2
    have hy1 : y ∉ ys ++ [x] := (List.nodup_cons.mp hnd).1
    intro i hi
    rcases List.mem_cons.mp hi with hiy | hiys
    · subst hiy
      intro hnext
      rw [hnext] at hy
      cases ys with
      | nil =>
        have : some t = some x := hy.1
        simp at this
        exact ht (by simp [this])
      | cons z zs =>
        have : some t = some z := hy.1
        simp at this
        exact ht (by simp [this])
    · exact ih hy hnd1 (fun h => ht (List.mem_cons_of_mem y h)) i hiys

theorem free_wp_full {N : Nat} {s : State} {act : List Nat} (h : PoolInv N s act [])
    (fuel : Nat) (id : Int) : free_wp fuel id s = .ok (s, []) := by
  have hf : s.free_ = none := h.free_seg
  simp [free_wp, hf]

theorem free_wp_not_found {N : Nat} {s : State} {act fr : List Nat} {f : Nat}
    (h : PoolInv N s act (f :: fr)) {fuel : Nat} (hfuel : act.length ≤ fuel) {id : Int}
    (hid : ∀ i, i ∈ act → (s.wp_pool i).NO ≠ id) :
    free_wp fuel id s = .ok (s, [Out.no_such_watchpoint]) := by
  have hf : s.free_ = some f := h.free_seg.1
  simp [free_wp, hf, find_NO_none h.act_seg hid hfuel]

theorem nodup_split {a b c : List Nat} {t : Nat} (hnd : (a ++ t :: b ++ c).Nodup) :
    t ∉ a ∧ t ∉ b ∧ t ∉ c ∧ (∀ i, i ∈ a → i ∉ b ∧ i ∉ c) ∧ (∀ i, i ∈ b → i ∉ c) ∧
      a.Nodup ∧ b.Nodup ∧ c.Nodup := by
  simp only [List.nodup_append, List.nodup_cons, List.mem_append, List.mem_cons,
    List.disjoint_left, not_or] at hnd
  obtain ⟨⟨ha, ⟨htb, hb⟩, hab⟩, hc, habc⟩ := hnd
  refine ⟨?_, htb, ?_, ?_, ?_, ha, hb, hc⟩
  · intro hta
    exact (hab hta).1 rfl
  · intro htc
    exact habc (Or.inr (Or.inl rfl)) htc
  · intro i hi
    exact ⟨(hab hi).2, fun hic => habc (Or.inl hi) hic⟩
  · intro i hi hic
    exact habc (Or.inr (Or.inr hi)) hic

theorem getLast?_snoc (l : List Nat) (x : Nat) : (l ++ [x]).getLast? = some x := by
  simp

theorem free_wp_spec {N : Nat} {s : State} {a b fr : List Nat} {t f : Nat}
    (h : PoolInv N s (a ++ t :: b) (f :: fr)) {fuel : Nat} (hfuel : (a ++ t :: b).length ≤ fuel) :
    ∃ s1, free_wp fuel (t : Int) s = .ok (s1, []) ∧ PoolInv N s1 (a ++ b) (t :: f :: fr) ∧
      ∀ i, (s1.wp_pool i).NO = (s.wp_pool i).NO ∧ (s1.wp_pool i).exp = (s.wp_pool i).exp ∧
        (s1.wp_pool i).old = (s.wp_pool i).old := by
  have hf : s.free_ = some f := h.free_seg.1
  have hfr : Seg s.wp_pool (some f) (f :: fr) none := hf ▸ h.free_seg
  have hnd := h.nodup
  obtain ⟨hta, htb, htc, hab, hbc, hnda, hndb, hndc⟩ := nodup_split hnd
  have htf : t ≠ f := fun e => htc (by simp [e])
  have htN : t < N := h.lt (by simp)
  have hNOt : (s.wp_pool t).NO = (t : Int) := h.NO_eq t htN
  have hNOa : ∀ i, i ∈ a → (s.wp_pool i).NO ≠ (t : Int) := by
    intro i hi
    rw [h.NO_eq i (h.lt (by simp [hi]))]
    intro e
    have : i = t := by exact_mod_cast e
    exact hta (this ▸ hi)
  have hlen : a.length + 1 ≤ fuel := by
    simp only [List.length_append, List.length_cons] at hfuel
    omega
  have hfind := find_NO_some h.act_seg hNOa hNOt hlen
  obtain ⟨m, hsa, hm, hsb⟩ := Seg_append.mp h.act_seg
  have hseg := h.act_seg
  have hNO := h.NO_eq
  have hcur := h.cur_last
  have hperm := h.perm
  rcases List.eq_nil_or_concat a with ha | ⟨a1, p, ha⟩
  · -- the target is the head of the active list
    subst ha
    have hhead : s.head = some t := hseg.1
    simp only [free_wp, hf]
    rw [hfind]
    simp only [hhead, if_true]
    refine ⟨_, rfl, ⟨?_, ?_, ?_, ?_, ?_⟩, ?_⟩
    · show Seg _ (s.wp_pool t).next ([] ++ b) none
      refine Seg_frame ?_ hsb
      intro i hi
      have : i ≠ t := fun e => htb (e ▸ hi)
      simp [set_next, Function.update_noteq this]
    · show Seg _ (some t) (t :: f :: fr) none
      refine ⟨rfl, ?_⟩
      have : (set_next s.wp_pool t (some f) t).next = some f := by simp [set_next]
      rw [this]
      refine Seg_frame ?_ hfr
      intro i hi
      have : i ≠ t := fun e => htc (e ▸ hi)
      simp [set_next, Function.update_noteq this]
    · refine List.Perm.trans ?_ hperm
      simp only [List.nil_append]
      exact (List.perm_middle).trans (List.Perm.refl _)
    · intro i hi
      by_cases hit : i = t
      · subst hit
        simpa [set_next] using hNO i hi
      · simpa [set_next, Function.update_noteq hit] using hNO i hi
    · intro x hx
      refine hcur x ?_
      cases b with
      | nil => simp at hx
      | cons y ys => simpa using hx
    · intro i
      by_cases hit : i = t
      · subst hit
        simp [set_next]
      · simp [set_next, Function.update_noteq hit]
  · rw [List.concat_eq_append] at ha
    subst ha
    have hmt : m = some t := hm
    subst hmt
    have hpt : p ≠ t := fun e => hta (by simp [e])
    have htp : t ≠ p := fun e => hpt e.symm
    have hta1 : t ∉ a1 := fun e => hta (by simp [e])
    have hpa1 : p ∉ a1 := by
      intro e
      exact (List.nodup_append.mp hnda).2.2 e (show p ∈ [p] by simp)
    have hpb : p ∉ b := (hab p (by simp)).1
    have hpc : p ∉ f :: fr := (hab p (by simp)).2
    have hnext := Seg_next_ne hsa hnda hta
    have hhead : some t ≠ s.head := by
      intro e
      have hmem : t ∈ a1 ++ [p] := by
        cases a1 with
        | nil =>
          have : s.head = some p := hsa.1
          rw [this] at e
          simp at e
          simp [e]
        | cons y ys =>
          have : s.head = some y := hsa.1
          rw [this] at e
          simp at e
          simp [e]
      exact hta hmem
    have hlen1 : a1.length + 1 ≤ fuel := by
      simp only [List.length_append, List.length_cons, List.length_nil] at hlen
      omega
    rcases List.eq_nil_or_concat b with hb | ⟨b1, x, hb⟩
    · -- the target is the tail of the active list
      subst hb
      have hc : s.cur = some t := hcur t (by simp)
      have hsearch : search_loop (set_next s.wp_pool t (some f)) (some t) fuel s.head
          = .ok (some p) := by
        refine search_loop_spec (Seg_frame ?_ hsa) ?_ hlen1
        · intro i hi
          have : i ≠ t := fun e => hta (e ▸ hi)
          simp [set_next, Function.update_noteq this]
        · intro i hi
          have : i ≠ t := fun e => hta1 (e ▸ hi)
          simpa [set_next, Function.update_noteq this] using hnext i hi
      simp only [free_wp, hf]
      rw [hfind]
      simp only [hhead, if_false, hc, if_true, search_]
      rw [hsearch]
      refine ⟨_, rfl, ⟨?_, ?_, ?_, ?_, ?_⟩, ?_⟩
      · show Seg _ s.head ((a1 ++ [p]) ++ []) none
        rw [List.append_nil]
        obtain ⟨m1, hs1, hm1, -⟩ := Seg_append.mp hsa
        refine Seg_append.mpr ⟨m1, Seg_frame ?_ hs1, hm1, ?_⟩
        · intro i hi
          have h1 : i ≠ t := fun e => hta1 (e ▸ hi)
          have h2 : i ≠ p := fun e => hpa1 (e ▸ hi)
          simp [set_next, Function.update_noteq h1, Function.update_noteq h2]
        · simp [Seg, set_next]
      · show Seg _ (some t) (t :: f :: fr) none
        refine ⟨rfl, ?_⟩
        have : (set_next (set_next s.wp_pool t (some f)) p none t).next = some f := by
          simp [set_next, Function.update_noteq htp]
        rw [this]
        refine Seg_frame ?_ hfr
        intro i hi
        have h1 : i ≠ t := fun e => htc (e ▸ hi)
        have h2 : i ≠ p := fun e => hpc (e ▸ hi)
        simp [set_next, Function.update_noteq h1, Function.update_noteq h2]
      · refine List.Perm.trans ?_ hperm
        simp
      · intro i hi
        by_cases hit : i = t
        · subst hit
          simpa [set_next, Function.update_noteq htp] using hNO i hi
        · by_cases hip : i = p
          · subst hip
            simpa [set_next, Function.update_noteq hit] using hNO i hi
          · simpa [set_next, Function.update_noteq hit, Function.update_noteq hip] using hNO i hi
      · intro x hx
        simp at hx
        show some p = some x
        rw [hx]
      · intro i
        by_cases hit : i = t
        · subst hit
          simp [set_next, Function.update_noteq htp]
        · by_cases hip : i = p
          · subst hip
            simp [set_next, Function.update_noteq hit]
          · simp [set_next, Function.update_noteq hit, Function.update_noteq hip]
    · -- the target is an interior slot
      rw [List.concat_eq_append] at hb
      have hxb : x ∈ b := by simp [hb]
      have hlast : ∀ pre : List Nat, (pre ++ b).getLast? = some x := by
        intro pre
        rw [hb, ← List.append_assoc]
        exact getLast?_snoc _ x
      have e1 : a1 ++ [p] ++ t :: b = (a1 ++ [p] ++ [t]) ++ b := by simp
      have hc : s.cur = some x := hcur x (by rw [e1]; exact hlast _)
      have hcne : some t ≠ s.cur := by
        rw [hc]
        intro e
        simp at e
        exact htb (e ▸ hxb)
      have hsearch : search_loop s.wp_pool (some t) fuel s.head = .ok (some p) :=
        search_loop_spec hsa hnext hlen1
      simp only [free_wp, hf]
      rw [hfind]
      simp only [hhead, if_false, hcne, search_]
      rw [hsearch]
      refine ⟨_, rfl, ⟨?_, ?_, ?_, ?_, ?_⟩, ?_⟩
      · show Seg _ s.head ((a1 ++ [p]) ++ b) none
        obtain ⟨m1, hs1, hm1, -⟩ := Seg_append.mp hsa
        refine Seg_append.mpr ⟨(s.wp_pool t).next, Seg_append.mpr ⟨m1, Seg_frame ?_ hs1, hm1, ?_⟩,
          Seg_frame ?_ hsb⟩
        · intro i hi
          have h1 : i ≠ t := fun e => hta1 (e ▸ hi)
          have h2 : i ≠ p := fun e => hpa1 (e ▸ hi)
          simp [set_next, Function.update_noteq h1, Function.update_noteq h2]
        · simp [Seg, set_next, Function.update_noteq hpt]
        · intro i hi
          have h1 : i ≠ t := fun e => htb (e ▸ hi)
          have h2 : i ≠ p := fun e => hpb (e ▸ hi)
          simp [set_next, Function.update_noteq h1, Function.update_noteq h2]
      · show Seg _ (some t) (t :: f :: fr) none
        refine ⟨rfl, ?_⟩
        have : (set_next (set_next s.wp_pool p (s.wp_pool t).next) t (some f) t).next
            = some f := by
          simp [set_next]
        rw [this]
        refine Seg_frame ?_ hfr
        intro i hi
        have h1 : i ≠ t := fun e => htc (e ▸ hi)
        have h2 : i ≠ p := fun e => hpc (e ▸ hi)
        simp [set_next, Function.update_noteq h1, Function.update_noteq h2]
      · refine List.Perm.trans ?_ hperm
        simp only [List.append_assoc]
        refine List.Perm.append_left a1 (List.Perm.append_left [p] ?_)
        exact (List.perm_middle).trans (List.Perm.refl _)
      · intro i hi
        by_cases hit : i = t
        · subst hit
          simpa [set_next, Function.update_noteq htp] using hNO i hi
        · by_cases hip : i = p
          · subst hip
            simpa [set_next, Function.update_noteq hit] using hNO i hi
          · simpa [set_next, Function.update_noteq hit, Function.update_noteq hip] using hNO i hi
      · intro x1 hx1
        rw [hc, ← hx1, hlast]
      · intro i
        by_cases hit : i = t
        · subst hit
          simp [set_next, Function.update_noteq htp]
        · by_cases hip : i = p
          · subst hip
            simp [set_next, Function.update_noteq hit]
          · simp [set_next, Function.update_noteq hit, Function.update_noteq hip]

theorem check_loop_spec (ev : String → Option Nat) (pool0 : Nat → WP) {l : List Nat}
    {pool : Nat → WP} {p : Option Nat} {fuel : Nat} (st : NEMUState) (out : List Out)
    (hs : Seg pool p l none) (hnd : l.Nodup) (hag : ∀ i, i ∈ l → pool i = pool0 i)
    (hfuel : l.length ≤ fuel) :
    check_loop ev fuel p (pool, st, out) =
      .ok (fun i => if i ∈ l then scan_slot ev (pool0 i) else pool i,
           if l.any (fun i => scan_hit ev (pool0 i)) then NEMUState.NEMU_STOP else st,
           out ++ l.filterMap (fun i => scan_report ev (pool0 i))) := by
  induction l generalizing pool p fuel st out with
  | nil =>
    have hp : p = none := hs
    subst hp
    cases fuel <;> simp [check_loop]
  | cons x xs ih =>
    have hp : p = some x := hs.1
    have hx : Seg pool (pool x).next xs none := hs.2
    subst hp
    have hxxs : x ∉ xs := (List.nodup_cons.mp hnd).1
    have hnd1 : xs.Nodup := (List.nodup_cons.mp hnd).2
    have hpx : pool x = pool0 x := hag x (List.mem_cons_self x xs)
    cases fuel with
    | zero => simp at hfuel
    | succ k =>
      have hk : xs.length ≤ k := by simpa using hfuel
      have hag1 : ∀ i, i ∈ xs → pool i = pool0 i := fun i hi => hag i (List.mem_cons_of_mem x hi)
      cases hev : ev (pool0 x).exp with
      | none =>
        simp only [check_loop, hpx, hev]
        rw [← hpx, ih st _ hx hnd1 hag1 hk]
        simp only [List.any_cons, scan_hit, hev, Bool.false_or, List.filterMap_cons, scan_report,
          List.append_assoc, List.singleton_append, hpx]
        congr 2
        funext i
        by_cases hi : i ∈ xs
        · simp [hi]
        · by_cases hix : i = x
          · subst hix
            simp [hi, scan_slot, hev, hpx]
          · simp [hi, hix]
      | some res =>
        by_cases hres : res = (pool0 x).old
        · simp only [check_loop, hpx, hev, hres, ne_eq, not_true_eq_false, if_false]
          rw [← hpx, ih st _ hx hnd1 hag1 hk]
          simp only [List.any_cons, scan_hit, hev, hres, ne_eq, not_true_eq_false, decide_False,
            Bool.false_or, List.filterMap_cons, scan_report, if_false, hpx]
          congr 2
          funext i
          by_cases hi : i ∈ xs
          · simp [hi]
          · by_cases hix : i = x
            · subst hix
              simp [hi, scan_slot, hev, hres, hpx]
            · simp [hi, hix]
        · have hx1 : Seg (set_old pool x res) (set_old pool x res x).next xs none := by
            have : (set_old pool x res x).next = (pool x).next := by simp [set_old]
            rw [this]
            refine Seg_frame ?_ hx
            intro i hi
            have : i ≠ x := fun e => hxxs (e ▸ hi)
            simp [set_old, Function.update_noteq this]
          have hag2 : ∀ i, i ∈ xs → set_old pool x res i = pool0 i := by
            intro i hi
            have : i ≠ x := fun e => hxxs (e ▸ hi)
            simp [set_old, Function.update_noteq this, hag1 i hi]
          simp only [check_loop, hpx, hev, ne_eq, hres, not_false_eq_true, if_true]
          rw [← hpx, ih NEMUState.NEMU_STOP _ hx1 hnd1 hag2 hk]
          simp only [List.any_cons, scan_hit, hev, ne_eq, hres, not_false_eq_true, decide_True,
            Bool.true_or, if_true, List.filterMap_cons, scan_report, List.append_assoc,
            List.singleton_append, ite_self, hpx]
          congr 2
          funext i
          by_cases hi : i ∈ xs
          · simp [hi]
          · by_cases hix : i = x
            · subst hix
              simp [hi, scan_slot, hev, hres, set_old, hpx]
            · simp [hi, hix, set_old, Function.update_noteq hix]

theorem print_rows_spec {pool : Nat → WP} {l : List Nat} {p : Option Nat} {fuel : Nat}
    (hs : Seg pool p l none) (hfuel : l.length ≤ fuel) :
    print_rows pool fuel p = .ok (l.map (fun i => row_of (pool i))) := by
  induction l generalizing p fuel with
  | nil =>
    have hp : p = none := hs
    subst hp
    cases fuel <;> simp [print_rows]
  | cons x xs ih =>
    have hp : p = some x := hs.1
    have hx : Seg pool (pool x).next xs none := hs.2
    subst hp
    cases fuel with
    | zero => simp at hfuel
    | succ k =>
      simp only [print_rows]
      rw [ih hx (by simpa using hfuel)]
      simp [row_of]

theorem find_NO_mono {pool : Nat → WP} {id : Int} {fuel : Nat} {p r : Option Nat}
    (h : find_NO pool id fuel p = .ok r) (k : Nat) : find_NO pool id (fuel + k) p = .ok r := by
  induction fuel generalizing p with
  | zero =>
    cases p with
    | none =>
      have : r = none := by
        simp [find_NO] at h
        exact h.symm
      subst this
      cases k <;> rfl
    | some t => simp [find_NO] at h
  | succ n ih =>
    cases p with
    | none =>
      have : r = none := by
        simp [find_NO] at h
        exact h.symm
      subst this
      rw [Nat.succ_add]
      rfl
    | some t =>
      rw [Nat.succ_add]
      simp only [find_NO] at h ⊢
      by_cases hc : (pool t).NO = id
      · simpa [hc] using h
      · simp only [hc, if_false] at h ⊢
        exact ih h

theorem search_loop_mono {pool : Nat → WP} {wp : Option Nat} {fuel : Nat} {p r : Option Nat}
    (h : search_loop pool wp fuel p = .ok r) (k : Nat) :
    search_loop pool wp (fuel + k) p = .ok r := by
  induction fuel generalizing p with
  | zero =>
    cases p with
    | none =>
      have : r = none := by
        simp [search_loop] at h
        exact h.symm
      subst this
      cases k <;> rfl
    | some t => simp [search_loop] at h
  | succ n ih =>
    cases p with
    | none =>
      have : r = none := by
        simp [search_loop] at h
        exact h.symm
      subst this
      rw [Nat.succ_add]
      rfl
    | some t =>
      rw [Nat.succ_add]
      simp only [search_loop] at h ⊢
      by_cases hc : (pool t).next = wp
      · simpa [hc] using h
      · simp only [hc, if_false] at h ⊢
        exact ih h

theorem check_loop_mono {ev : String → Option Nat} {fuel : Nat} {p : Option Nat}
    {acc r : (Nat → WP) × NEMUState × List Out}
    (h : check_loop ev fuel p acc = .ok r) (k : Nat) :
    check_loop ev (fuel + k) p acc = .ok r := by
  induction fuel generalizing p acc with
  | zero =>
    cases p with
    | none =>
      have : r = acc := by
        simp [check_loop] at h
        exact h.symm
      subst this
      cases k <;> rfl
    | some t => simp [check_loop] at h
  | succ n ih =>
    cases p with
    | none =>
      have : r = acc := by
        simp [check_loop] at h
        exact h.symm
      subst this
      rw [Nat.succ_add]
      rfl
    | some t =>
      obtain ⟨pool, st, out⟩ := acc
      rw [Nat.succ_add]
      simp only [check_loop] at h ⊢
      cases hev : ev (pool t).exp with
      | none =>
        simp only [hev] at h ⊢
        exact ih h
      | some res =>
        simp only [hev] at h ⊢
        by_cases hc : res = (pool t).old
        · simp only [hc, ne_eq, not_true_eq_false, if_false] at h ⊢
          exact ih h
        · simp only [hc, ne_eq, not_false_eq_true, if_true] at h ⊢
          exact ih h

theorem free_wp_mono {fuel : Nat} {id : Int} {s : State} {r : State × List Out}
    (h : free_wp fuel id s = .ok r) (k : Nat) : free_wp (fuel + k) id s = .ok r := by
  unfold free_wp at h ⊢
  cases hf : s.free_ with
  | none => simpa [hf] using h
  | some f =>
    simp only [hf] at h ⊢
    cases hfn : find_NO s.wp_pool id fuel s.head with
    | error e => simp [hfn] at h
    | ok r0 =>
      rw [find_NO_mono hfn k]
      rw [hfn] at h
      cases r0 with
      | none => exact h
      | some t =>
        simp only at h ⊢
        simp only [search_] at h ⊢
        by_cases h1 : some t = s.head
        · rw [if_pos h1] at h ⊢
          exact h
        · rw [if_neg h1] at h ⊢
          by_cases h2 : some t = s.cur
          · rw [if_pos h2] at h ⊢
            cases hse : search_loop (set_next s.wp_pool t (some f)) (some t) fuel s.head with
            | error e => simp [hse] at h
            | ok r1 =>
              rw [search_loop_mono hse k]
              rw [hse] at h
              exact h
          · rw [if_neg h2] at h ⊢
            cases hse : search_loop s.wp_pool (some t) fuel s.head with
            | error e => simp [hse] at h
            | ok r1 =>
              rw [search_loop_mono hse k]
              rw [hse] at h
              exact h

theorem check_wp_mono {fuel : Nat} {ev : String → Option Nat} {s : State} {st : NEMUState}
    {r : State × NEMUState × List Out} (h : check_wp fuel ev s st = .ok r) (k : Nat) :
    check_wp (fuel + k) ev s st = .ok r := by
  unfold check_wp at h ⊢
  cases hc : check_loop ev fuel s.head (s.wp_pool, st, []) with
  | error e => simp [hc] at h
  | ok r0 =>
    rw [check_loop_mono hc k]
    rw [hc] at h
    exact h

theorem new_wp_ok_short {e : String} {s : State} {f : Nat} {r : State × Option Nat}
    (hf : s.free_ = some f) (h : new_wp e s = .ok r) : e.utf8ByteSize < 128 := by
  by_contra he
  unfold new_wp at h
  simp only [hf, strcpy_exp, he, if_false] at h
  cases hh : s.head with
  | none => simp [hh] at h
  | some hd =>
    cases hc : s.cur with
    | none => simp [hh, hc] at h
    | some c => simp [hh, hc, set_next] at h

theorem check_wp_spec {N : Nat} {s : State} {act fr : List Nat} (h : PoolInv N s act fr)
    (ev : String → Option Nat) (st : NEMUState) {fuel : Nat} (hfuel : act.length ≤ fuel) :
    check_wp fuel ev s st =
      .ok ({ s with wp_pool := fun i => if i ∈ act then scan_slot ev (s.wp_pool i) else s.wp_pool i },
           if act.any (fun i => scan_hit ev (s.wp_pool i)) then NEMUState.NEMU_STOP else st,
           act.filterMap (fun i => scan_report ev (s.wp_pool i))) := by
  have hnd : act.Nodup := (List.nodup_append.mp h.nodup).1
  unfold check_wp
  rw [check_loop_spec ev s.wp_pool st [] h.act_seg hnd (fun _ _ => rfl) hfuel]
  simp

theorem scan_slot_next (ev : String → Option Nat) (w : WP) : (scan_slot ev w).next = w.next := by
  unfold scan_slot
  cases ev w.exp with
  | none => rfl
  | some res =>
    by_cases hr : res = w.old
    · simp [hr]
    · simp [hr]

theorem scan_slot_NO (ev : String → Option Nat) (w : WP) : (scan_slot ev w).NO = w.NO := by
  unfold scan_slot
  cases ev w.exp with
  | none => rfl
  | some res =>
    by_cases hr : res = w.old
    · simp [hr]
    · simp [hr]

theorem scan_slot_exp (ev : String → Option Nat) (w : WP) : (scan_slot ev w).exp = w.exp := by
  unfold scan_slot
  cases ev w.exp with
  | none => rfl
  | some res =>
    by_cases hr : res = w.old
    · simp [hr]
    · simp [hr]

theorem check_wp_inv {N : Nat} {s : State} {act fr : List Nat} (h : PoolInv N s act fr)
    (ev : String → Option Nat) :
    PoolInv N { s with wp_pool := fun i => if i ∈ act then scan_slot ev (s.wp_pool i)
                                           else s.wp_pool i } act fr where
  act_seg := by
    refine Seg_frame ?_ h.act_seg
    intro i _
    by_cases hi : i ∈ act
    · simp [hi, scan_slot_next]
    · simp [hi]
  free_seg := by
    refine Seg_frame ?_ h.free_seg
    intro i _
    by_cases hi : i ∈ act
    · simp [hi, scan_slot_next]
    · simp [hi]
  perm := h.perm
  NO_eq := by
    intro i hiN
    by_cases hi : i ∈ act
    · simpa [hi, scan_slot_NO] using h.NO_eq i hiN
    · simpa [hi] using h.NO_eq i hiN
  cur_last := h.cur_last

theorem reachable_inv {N : Nat} (hN : 0 < N) {s : State} (h : Reachable N s) :
    ∃ act fr, PoolInv N s act fr := by
  induction h with
  | init => exact ⟨[], List.range N, init_inv N hN boot⟩
  | @new_wp s s1 e r _ hstep ih =>
    obtain ⟨act, fr, hinv⟩ := ih
    cases fr with
    | nil =>
      rw [new_wp_full hinv e] at hstep
      cases hstep
      exact ⟨act, [], hinv⟩
    | cons f fr =>
      have he := new_wp_ok_short hinv.free_seg.1 hstep
      obtain ⟨s2, h2, hinv2, -⟩ := new_wp_spec hinv e he
      rw [h2] at hstep
      cases hstep
      exact ⟨_, _, hinv2⟩
  | @free_wp s s1 fuel id o _ hstep ih =>
    obtain ⟨act, fr, hinv⟩ := ih
    cases fr with
    | nil =>
      rw [free_wp_full hinv fuel id] at hstep
      cases hstep
      exact ⟨act, [], hinv⟩
    | cons f fr =>
      have hstep1 := free_wp_mono hstep act.length
      by_cases hid : ∃ t, t ∈ act ∧ (s.wp_pool t).NO = id
      · obtain ⟨t, htact, ht⟩ := hid
        obtain ⟨a, b, hab⟩ := List.append_of_mem htact
        subst hab
        have htid : (t : Int) = id := by
          rw [← ht, hinv.NO_eq t (hinv.lt (by simp))]
        subst htid
        obtain ⟨s2, h2, hinv2, -⟩ := free_wp_spec hinv (Nat.le_add_left _ fuel)
        rw [h2] at hstep1
        cases hstep1
        exact ⟨_, _, hinv2⟩
      · have hno : ∀ i, i ∈ act → (s.wp_pool i).NO ≠ id := fun i hi e => hid ⟨i, hi, e⟩
        rw [free_wp_not_found hinv (Nat.le_add_left _ fuel) hno] at hstep1
        cases hstep1
        exact ⟨_, _, hinv⟩
  | @check_wp s s1 fuel ev st st1 o _ hstep ih =>
    obtain ⟨act, fr, hinv⟩ := ih
    have hstep1 := check_wp_mono hstep act.length
    rw [check_wp_spec hinv ev st (Nat.le_add_left _ fuel)] at hstep1
    cases hstep1
    exact ⟨_, _, check_wp_inv hinv ev⟩

theorem PoolInv.length_le {N : Nat} {s : State} {act fr : List Nat} (h : PoolInv N s act fr) :
    act.length ≤ N := by
  have := h.perm.length_eq
  simp only [List.length_append, List.length_range] at this
  omega

theorem PoolInv.exactly_one {N : Nat} {s : State} {act fr : List Nat} (h : PoolInv N s act fr)
    (i : Nat) (hi : i < N) : (i ∈ act ∧ i ∉ fr) ∨ (i ∉ act ∧ i ∈ fr) := by
  have hmem : i ∈ act ++ fr := h.perm.mem_iff.mpr (List.mem_range.mpr hi)
  have hdis := (List.nodup_append.mp h.nodup).2.2
  rcases List.mem_append.mp hmem with ha | hf
  · exact Or.inl ⟨ha, fun hf => hdis ha hf⟩
  · exact Or.inr ⟨fun ha => hdis ha hf, hf⟩

theorem PoolInv.NO_inj {N : Nat} {s : State} {act fr : List Nat} (h : PoolInv N s act fr)
    {i j : Nat} (hi : i ∈ act) (hj : j ∈ act) (e : (s.wp_pool i).NO = (s.wp_pool j).NO) :
    i = j := by
  rw [h.NO_eq i (h.lt (by simp [hi])), h.NO_eq j (h.lt (by simp [hj]))] at e
  exact_mod_cast e

theorem free_wp_total {N : Nat} {s : State} {act fr : List Nat} (h : PoolInv N s act fr)
    {fuel : Nat} (hfuel : act.length ≤ fuel) (id : Int) :
    ∃ s1 o act1 fr1, free_wp fuel id s = .ok (s1, o) ∧ PoolInv N s1 act1 fr1 := by
  cases fr with
  | nil => exact ⟨s, [], act, [], free_wp_full h fuel id, h⟩
  | cons f fr =>
    by_cases hid : ∃ t, t ∈ act ∧ (s.wp_pool t).NO = id
    · obtain ⟨t, htact, ht⟩ := hid
      obtain ⟨a, b, hab⟩ := List.append_of_mem htact
      subst hab
      have htid : (t : Int) = id := by
        rw [← ht, h.NO_eq t (h.lt (by simp))]
      subst htid
      obtain ⟨s2, h2, hinv2, -⟩ := free_wp_spec h hfuel
      exact ⟨s2, [], _, _, h2, hinv2⟩
    · have hno : ∀ i, i ∈ act → (s.wp_pool i).NO ≠ id := fun i hi e => hid ⟨i, hi, e⟩
      exact ⟨s, _, act, _, free_wp_not_found h hfuel hno, h⟩

theorem new_wp_total {N : Nat} {s : State} {act fr : List Nat} (h : PoolInv N s act fr)
    (e : String) (he : e.utf8ByteSize < 128) :
    ∃ s1 r act1 fr1, new_wp e s = .ok (s1, r) ∧ PoolInv N s1 act1 fr1 := by
  cases fr with
  | nil => exact ⟨s, none, act, [], new_wp_full h e, h⟩
  | cons f fr =>
    obtain ⟨s2, h2, hinv2, -⟩ := new_wp_spec h e he
    exact ⟨s2, some f, _, _, h2, hinv2⟩

theorem run_calls_inv {N : Nat} {fuel : Nat} (hfuel : N ≤ fuel) (calls : List Call)
    (hshort : ∀ e, Call.new_wp e ∈ calls → e.utf8ByteSize < 128)
    {s : State} {act fr : List Nat} (h : PoolInv N s act fr) :
    ∃ s1 act1 fr1, run_calls fuel calls s = .ok s1 ∧ PoolInv N s1 act1 fr1 := by
  induction calls generalizing s act fr with
  | nil => exact ⟨s, act, fr, rfl, h⟩
  | cons c cs ih =>
    have hcs : ∀ e, Call.new_wp e ∈ cs → e.utf8ByteSize < 128 :=
      fun e he => hshort e (List.mem_cons_of_mem c he)
    cases c with
    | new_wp e =>
      obtain ⟨s1, r, act1, fr1, h1, hinv1⟩ := new_wp_total h e (hshort e (List.mem_cons_self _ cs))
      obtain ⟨s2, act2, fr2, h2, hinv2⟩ := ih hcs hinv1
      refine ⟨s2, act2, fr2, ?_, hinv2⟩
      simp only [run_calls, h1]
      exact h2
    | free_wp id =>
      obtain ⟨s1, o, act1, fr1, h1, hinv1⟩ := free_wp_total h (le_trans h.length_le hfuel) id
      obtain ⟨s2, act2, fr2, h2, hinv2⟩ := ih hcs hinv1
      refine ⟨s2, act2, fr2, ?_, hinv2⟩
      simp only [run_calls, h1]
      exact h2

/-- C1: after any sequence of `new_wp` and `free_wp` calls on a freshly initialised pool of `N`
slots (expressions fitting `char exp[128]`, walks given fuel for `N` slots) every call has
returned, and in the resulting state the active list and the free list are `NULL`-terminated
chains such that every slot index below `N` lies on exactly one of them, `cur` is the last
active slot whenever there is one, active slots have pairwise different `NO`, and at most `N`
slots are active. -/
theorem C1_pool_invariants (N : Nat) (hN : 0 < N) (fuel : Nat) (hfuel : N ≤ fuel)
    (calls : List Call) (hshort : ∀ e, Call.new_wp e ∈ calls → e.utf8ByteSize < 128) :
    ∃ s act fr, run_calls fuel calls (init_wp_pool N boot) = .ok s ∧
      Seg s.wp_pool s.head act none ∧ Seg s.wp_pool s.free_ fr none ∧
      (∀ i, i < N → (i ∈ act ∧ i ∉ fr) ∨ (i ∉ act ∧ i ∈ fr)) ∧
      (∀ x, act.getLast? = some x → s.cur = some x) ∧
      (∀ i j, i ∈ act → j ∈ act → (s.wp_pool i).NO = (s.wp_pool j).NO → i = j) ∧
      act.Nodup ∧ act.length ≤ N := by
  obtain ⟨s, act, fr, hrun, hinv⟩ := run_calls_inv hfuel calls hshort (init_inv N hN boot)
  exact ⟨s, act, fr, hrun, hinv.act_seg, hinv.free_seg, hinv.exactly_one, hinv.cur_last,
    fun i j hi hj e => hinv.NO_inj hi hj e, (List.nodup_append.mp hinv.nodup).1, hinv.length_le⟩

/-- C1 on a pool of 3 slots: two allocations, a deletion, an allocation, a deletion of an absent id. -/
theorem C1_pool_invariants_witness :
    ∃ s act fr, run_calls 3 [Call.new_wp "x", Call.new_wp "y", Call.free_wp 0, Call.new_wp "z",
        Call.free_wp 7] (init_wp_pool 3 boot) = .ok s ∧
      Seg s.wp_pool s.head act none ∧ Seg s.wp_pool s.free_ fr none ∧
      (∀ i, i < 3 → (i ∈ act ∧ i ∉ fr) ∨ (i ∉ act ∧ i ∈ fr)) ∧
      (∀ x, act.getLast? = some x → s.cur = some x) ∧
      (∀ i j, i ∈ act → j ∈ act → (s.wp_pool i).NO = (s.wp_pool j).NO → i = j) ∧
      act.Nodup ∧ act.length ≤ 3 :=
  C1_pool_invariants 3 (by decide) 3 (by decide) _ (by
    intro e he
    simp only [List.mem_cons, Call.new_wp.injEq, List.mem_singleton, List.not_mem_nil,
      or_false, false_or, reduceCtorEq] at he
    rcases he with rfl | rfl | rfl <;> decide)

theorem new_wp_seq_spec {N : Nat} (es : List String)
    (hshort : ∀ e, e ∈ es → e.utf8ByteSize < 128)
    {s : State} {act fr : List Nat} (h : PoolInv N s act fr) (hlen : es.length ≤ fr.length) :
    ∃ s1, new_wp_seq es s = .ok (s1, (fr.take es.length).map some) ∧
      PoolInv N s1 (act ++ fr.take es.length) (fr.drop es.length) ∧
      ∀ i, (s1.wp_pool i).NO = (s.wp_pool i).NO ∧ (s1.wp_pool i).old = (s.wp_pool i).old := by
  induction es generalizing s act fr with
  | nil =>
    refine ⟨s, rfl, ?_, fun i => ⟨rfl, rfl⟩⟩
    simpa using h
  | cons e es ih =>
    cases fr with
    | nil => simp at hlen
    | cons f fr =>
      obtain ⟨s1, h1, hinv1, hf1⟩ := new_wp_spec h e (hshort e (List.mem_cons_self e es))
      obtain ⟨s2, h2, hinv2, hf2⟩ := ih (fun e1 he1 => hshort e1 (List.mem_cons_of_mem e he1))
        hinv1 (by simpa using hlen)
      refine ⟨s2, ?_, ?_, ?_⟩
      · simp only [new_wp_seq, h1, h2]
        simp
      · simpa [List.append_assoc] using hinv2
      · intro i
        exact ⟨(hf2 i).1.trans (hf1 i).1, (hf2 i).2.trans (hf1 i).2.1⟩

theorem new_wp_seq_full {N : Nat} (es : List String) {s : State} {act : List Nat}
    (h : PoolInv N s act []) :
    new_wp_seq es s = .ok (s, es.map (fun _ => none)) := by
  induction es with
  | nil => rfl
  | cons e es ih => simp [new_wp_seq, new_wp_full h e, ih]

theorem free_wp_seq_full {N : Nat} (fuel : Nat) (ids : List Int) {s : State} {act : List Nat}
    (h : PoolInv N s act []) :
    free_wp_seq fuel ids s = .ok (s, []) := by
  induction ids with
  | nil => rfl
  | cons id ids ih => simp [free_wp_seq, free_wp_full h fuel id, ih]

/-- After `N` allocations on a pool whose free list holds all `N` slots in index order, the
slots were handed out in that order and the free list is empty. -/
theorem new_wp_seq_fill {N : Nat} (es : List String) (hlen : es.length = N)
    (hshort : ∀ e, e ∈ es → e.utf8ByteSize < 128)
    {s : State} (h : PoolInv N s [] (List.range N)) :
    ∃ s1, new_wp_seq es s = .ok (s1, (List.range N).map some) ∧
      PoolInv N s1 (List.range N) [] := by
  obtain ⟨s1, h1, hinv1, -⟩ := new_wp_seq_spec es hshort h (by simp [hlen])
  have e1 : (List.range N).take es.length = List.range N := by
    rw [hlen]
    exact List.take_of_length_le (by simp)
  have e2 : (List.range N).drop es.length = [] := by
    rw [hlen]
    exact List.drop_of_length_le (by simp)
  rw [e1] at h1
  rw [e1, e2] at hinv1
  exact ⟨s1, h1, by simpa using hinv1⟩

theorem new_wp_seq_append {es1 es2 : List String} {s s1 s2 : State} {rs1 rs2 : List (Option Nat)}
    (h1 : new_wp_seq es1 s = .ok (s1, rs1)) (h2 : new_wp_seq es2 s1 = .ok (s2, rs2)) :
    new_wp_seq (es1 ++ es2) s = .ok (s2, rs1 ++ rs2) := by
  induction es1 generalizing s rs1 with
  | nil =>
    simp only [new_wp_seq, Except.ok.injEq, Prod.mk.injEq] at h1
    obtain ⟨e1, e2⟩ := h1
    subst e1
    subst e2
    simpa using h2
  | cons e es ih =>
    simp only [List.cons_append, new_wp_seq] at h1 ⊢
    cases hn : new_wp e s with
    | error f => simp [hn] at h1
    | ok r =>
      obtain ⟨s3, r3⟩ := r
      simp only [hn] at h1 ⊢
      cases hq : new_wp_seq es s3 with
      | error f => simp [hq] at h1
      | ok q =>
        obtain ⟨s4, rs4⟩ := q
        simp only [hq, Except.ok.injEq, Prod.mk.injEq] at h1
        obtain ⟨e1, e2⟩ := h1
        subst e1
        subst e2
        have := ih hq
        rw [show es.append es2 = es ++ es2 from rfl, this]
        simp

/-- C2: on a freshly initialised pool of `N` slots, `N` consecutive `new_wp` calls return the
slots `0, 1, ..., N-1` in this order, the slot returned by call `k + 1` carrying the id `k`
when it is returned and at the end, and one more `new_wp` call returns `NULL` and leaves the
state as it was. -/
theorem C2_exhaustion (N : Nat) (hN : 0 < N) (es : List String) (hlen : es.length = N)
    (hshort : ∀ e, e ∈ es → e.utf8ByteSize < 128) (e : String) :
    (∀ k, k < N → ∃ sk, new_wp_seq (es.take (k + 1)) (init_wp_pool N boot)
        = .ok (sk, (List.range (k + 1)).map some) ∧ (sk.wp_pool k).NO = (k : Int)) ∧
    ∃ s, new_wp_seq es (init_wp_pool N boot) = .ok (s, (List.range N).map some) ∧
      (∀ k, k < N → (s.wp_pool k).NO = (k : Int)) ∧
      new_wp e s = .ok (s, none) ∧
      new_wp_seq (es ++ [e]) (init_wp_pool N boot) = .ok (s, (List.range N).map some ++ [none]) := by
  constructor
  · intro k hk
    have hlen1 : (es.take (k + 1)).length = k + 1 := by
      rw [List.length_take]
      omega
    obtain ⟨sk, h1, hinv1, -⟩ := new_wp_seq_spec (es.take (k + 1))
      (fun e1 he1 => hshort e1 (List.mem_of_mem_take he1)) (init_inv N hN boot)
      (by rw [hlen1, List.length_range]; omega)
    have e1 : (List.range N).take (k + 1) = List.range (k + 1) := by
      rw [List.take_range]
      congr 1
      omega
    rw [hlen1, e1] at h1
    exact ⟨sk, h1, hinv1.NO_eq k hk⟩
  obtain ⟨s, h1, hinv⟩ := new_wp_seq_fill es hlen hshort (init_inv N hN boot)
  refine ⟨s, h1, hinv.NO_eq, new_wp_full hinv e, ?_⟩
  exact new_wp_seq_append h1 (by simp [new_wp_seq, new_wp_full hinv e])

/-- C2 on a pool of 3 slots with three expressions and a fourth allocation. -/
theorem C2_exhaustion_witness :
    (∀ k, k < 3 → ∃ sk, new_wp_seq (["$pc", "*0x80000000", "$a0 + 4"].take (k + 1))
        (init_wp_pool 3 boot) = .ok (sk, (List.range (k + 1)).map some) ∧
        (sk.wp_pool k).NO = (k : Int)) ∧
    ∃ s, new_wp_seq ["$pc", "*0x80000000", "$a0 + 4"] (init_wp_pool 3 boot)
        = .ok (s, (List.range 3).map some) ∧
      (∀ k, k < 3 → (s.wp_pool k).NO = (k : Int)) ∧
      new_wp "$sp" s = .ok (s, none) ∧
      new_wp_seq (["$pc", "*0x80000000", "$a0 + 4"] ++ ["$sp"]) (init_wp_pool 3 boot)
        = .ok (s, (List.range 3).map some ++ [none]) :=
  C2_exhaustion 3 (by decide) ["$pc", "*0x80000000", "$a0 + 4"] rfl (by
    intro e he
    simp only [List.mem_cons, List.mem_singleton, List.not_mem_nil, or_false] at he
    rcases he with rfl | rfl | rfl <;> decide) "$sp"

theorem Seg_start_eq {pool pool1 : Nat → WP} {l : List Nat} {p p1 : Option Nat}
    (h : Seg pool p l none) (h1 : Seg pool1 p1 l none) : p = p1 := by
  cases l with
  | nil =>
    have e : p = none := h
    have e1 : p1 = none := h1
    rw [e, e1]
  | cons x xs =>
    have e : p = some x := h.1
    have e1 : p1 = some x := h1.1
    rw [e, e1]

theorem reachable_sample_x : Reachable 3 sample_x :=
  Reachable.new_wp Reachable.init (rfl : new_wp "x" (init_wp_pool 3 boot) = .ok (sample_x, some 0))

theorem reachable_sample_xy : Reachable 3 sample_xy :=
  Reachable.new_wp reachable_sample_x (rfl : new_wp "y" sample_x = .ok (sample_xy, some 1))

theorem reachable_sample_scanned : Reachable 3 sample_scanned :=
  Reachable.check_wp reachable_sample_xy
    (rfl : check_wp 3 sample_ev sample_xy NEMUState.NEMU_RUNNING
      = .ok (sample_scanned, NEMUState.NEMU_STOP, [Out.changed 0 "x" 5 0, Out.changed 1 "y" 7 0]))

theorem reachable_sample_freed : Reachable 3 sample_freed :=
  Reachable.free_wp reachable_sample_scanned
    (rfl : free_wp 3 0 sample_scanned = .ok (sample_freed, []))

theorem reachable_free_cons {N : Nat} (hN : 0 < N) {s : State} (h : Reachable N s) {f : Nat}
    (hf : s.free_ = some f) {act : List Nat} (hact : Seg s.wp_pool s.head act none) :
    ∃ fr, PoolInv N s act (f :: fr) := by
  obtain ⟨act1, fr1, hinv⟩ := reachable_inv hN h
  have e1 : act1 = act := Seg_unique hinv.act_seg hact
  subst e1
  cases fr1 with
  | nil =>
    have : s.free_ = none := hinv.free_seg
    rw [this] at hf
    cases hf
  | cons g fr =>
    have : s.free_ = some g := hinv.free_seg.1
    rw [this] at hf
    cases hf
    exact ⟨fr, hinv⟩

/-- C3 (as stated, refuted): on the reachable state obtained by allocating "x", scanning once with
an evaluator returning 5 and deleting watchpoint 0, `new_wp "z"` returns the head of the free
list, slot 0, with `exp = "z"`, but its `old` is still 5, not 0. -/
theorem C3_last_value_not_cleared :
    ∃ s1 s2 s3 s4, new_wp "x" (init_wp_pool NR_WP boot) = .ok (s1, some 0) ∧
      check_wp NR_WP (fun _ => some 5) s1 NEMUState.NEMU_RUNNING
        = .ok (s2, NEMUState.NEMU_STOP, [Out.changed 0 "x" 5 0]) ∧
      free_wp NR_WP 0 s2 = .ok (s3, []) ∧ s3.free_ = some 0 ∧
      new_wp "z" s3 = .ok (s4, some 0) ∧ (s4.wp_pool 0).exp = "z" ∧ (s4.wp_pool 0).old = 5 ∧
      ¬ (s4.wp_pool 0).old = 0 :=
  ⟨_, _, _, _, rfl, rfl, rfl, rfl, rfl, rfl, rfl, by decide⟩

/-- C3 (amended): in a reachable state whose free list starts with slot `f`, `new_wp e` for a
text `e` shorter than 128 bytes returns `f`; afterwards the active list is the previous one
followed by `f`, the free list has lost its head, `cur` is `f`, the `exp` of `f` is `e`, and
`old` is not written: every slot, `f` included, keeps the `old` it had before the call. -/
theorem C3_new_wp_appends (N : Nat) (hN : 0 < N) (s : State) (h : Reachable N s) (f : Nat)
    (hf : s.free_ = some f) (act : List Nat) (hact : Seg s.wp_pool s.head act none)
    (e : String) (he : e.utf8ByteSize < 128) :
    ∃ s1, new_wp e s = .ok (s1, some f) ∧ Seg s1.wp_pool s1.head (act ++ [f]) none ∧
      s1.free_ = (s.wp_pool f).next ∧ s1.cur = some f ∧
      (s1.wp_pool f).exp = e ∧ (s1.wp_pool f).NO = (s.wp_pool f).NO ∧
      (∀ i, (s1.wp_pool i).old = (s.wp_pool i).old) ∧
      (∀ i, i ≠ f → (s1.wp_pool i).exp = (s.wp_pool i).exp ∧
        (s1.wp_pool i).NO = (s.wp_pool i).NO) := by
  obtain ⟨fr, hinv⟩ := reachable_free_cons hN h hf hact
  obtain ⟨s1, h1, hinv1, hfld⟩ := new_wp_spec hinv e he
  refine ⟨s1, h1, hinv1.act_seg, ?_, hinv1.cur_last f (by simp), ?_, (hfld f).1,
    fun i => (hfld i).2.1, ?_⟩
  · exact Seg_start_eq hinv1.free_seg hinv.free_seg.2
  · simpa using (hfld f).2.2
  · intro i hi
    exact ⟨by simpa [hi] using (hfld i).2.2, (hfld i).1⟩

/-- C3 (amended) on `sample_freed`: the freed slot 0 is appended after slot 1. -/
theorem C3_new_wp_appends_witness :
    ∃ s1, new_wp "z" sample_freed = .ok (s1, some 0) ∧
      Seg s1.wp_pool s1.head ([1] ++ [0]) none ∧
      s1.free_ = (sample_freed.wp_pool 0).next ∧ s1.cur = some 0 ∧
      (s1.wp_pool 0).exp = "z" ∧ (s1.wp_pool 0).NO = (sample_freed.wp_pool 0).NO ∧
      (∀ i, (s1.wp_pool i).old = (sample_freed.wp_pool i).old) ∧
      (∀ i, i ≠ 0 → (s1.wp_pool i).exp = (sample_freed.wp_pool i).exp ∧
        (s1.wp_pool i).NO = (sample_freed.wp_pool i).NO) :=
  C3_new_wp_appends 3 (by decide) sample_freed reachable_sample_freed 0 rfl [1] (by decide)
    "z" (by decide)

theorem replicate_short (n : Nat) : ∀ e, e ∈ List.replicate n "x" → e.utf8ByteSize < 128 := by
  intro e he
  rw [List.eq_of_mem_replicate he]
  decide

/-- The full pool of the source: `NR_WP` watchpoints on "x" allocated after `init_wp_pool`. -/
theorem full_pool :
    ∃ s, new_wp_seq (List.replicate NR_WP "x") (init_wp_pool NR_WP boot)
        = .ok (s, (List.range NR_WP).map some) ∧ PoolInv NR_WP s (List.range NR_WP) [] :=
  new_wp_seq_fill _ (by simp) (replicate_short NR_WP) (init_inv NR_WP (by decide) boot)

/-- C4 (code at the failing input): with all `NR_WP = 32` slots active, slot 0 is the head of
the active list and has id 0, yet `free_wp 0` returns at its first test `if (!free_)` and
leaves the state as it was; and in the spec's pool of capacity 2 with "x" and "y" active, the
listing after `free_wp 0` still shows both rows. -/
theorem C4_free_wp_on_full_pool :
    (∃ s, new_wp_seq (List.replicate NR_WP "x") (init_wp_pool NR_WP boot)
        = .ok (s, (List.range NR_WP).map some) ∧
      s.head = some 0 ∧ (s.wp_pool 0).NO = 0 ∧ free_wp NR_WP 0 s = .ok (s, [])) ∧
    (∃ s, new_wp_seq ["x", "y"] (init_wp_pool 2 boot) = .ok (s, [some 0, some 1]) ∧
      free_wp 2 0 s = .ok (s, []) ∧
      print_wp 2 (state_of (free_wp 2 0 s)) = .ok [Out.header, Out.row 0 "x" 0, Out.row 1 "y" 0]) := by
  constructor
  · obtain ⟨s, h1, hinv⟩ := full_pool
    refine ⟨s, h1, ?_, ?_, free_wp_full hinv NR_WP 0⟩
    · exact hinv.act_seg.1
    · exact hinv.NO_eq 0 (by decide)
  · exact ⟨_, rfl, rfl, rfl⟩

/-- C5 (code at the failing input): with all `NR_WP = 32` slots active no slot has id 99, yet
`free_wp 99` prints nothing: it returns at `if (!free_)` before the search, so the message
"there is no such watchpoint!" is not produced (the state is left as it was). -/
theorem C5_free_wp_silent_on_full_pool :
    ∃ s, new_wp_seq (List.replicate NR_WP "x") (init_wp_pool NR_WP boot)
        = .ok (s, (List.range NR_WP).map some) ∧
      (∀ i, i < NR_WP → (s.wp_pool i).NO ≠ 99) ∧
      free_wp NR_WP 99 s = .ok (s, []) ∧
      free_wp NR_WP 99 s ≠ .ok (s, [Out.no_such_watchpoint]) := by
  obtain ⟨s, h1, hinv⟩ := full_pool
  refine ⟨s, h1, ?_, free_wp_full hinv NR_WP 99, ?_⟩
  · intro i hi
    rw [hinv.NO_eq i hi]
    have : i < 32 := hi
    omega
  · rw [free_wp_full hinv NR_WP 99]
    simp

/-- C6 (code at the failing input): after `NR_WP = 32` allocations, `free_wp` on each of the
ids 0..31 changes nothing and prints nothing, and the 32 following `new_wp` calls all return
`NULL`: no slot is reclaimed. -/
theorem C6_full_pool_not_reclaimed :
    ∃ s, new_wp_seq (List.replicate NR_WP "x") (init_wp_pool NR_WP boot)
        = .ok (s, (List.range NR_WP).map some) ∧
      free_wp_seq NR_WP ((List.range NR_WP).map Int.ofNat) s = .ok (s, []) ∧
      new_wp_seq (List.replicate NR_WP "y") s = .ok (s, List.replicate NR_WP none) := by
  obtain ⟨s, h1, hinv⟩ := full_pool
  refine ⟨s, h1, free_wp_seq_full NR_WP _ hinv, ?_⟩
  rw [new_wp_seq_full _ hinv]
  simp

theorem reachable_act {N : Nat} (hN : 0 < N) {s : State} (h : Reachable N s) {act : List Nat}
    (hact : Seg s.wp_pool s.head act none) : ∃ fr, PoolInv N s act fr := by
  obtain ⟨act1, fr1, hinv⟩ := reachable_inv hN h
  have e1 : act1 = act := Seg_unique hinv.act_seg hact
  subst e1
  exact ⟨fr1, hinv⟩

theorem check_wp_reachable {N : Nat} (hN : 0 < N) {s : State} (h : Reachable N s)
    {act : List Nat} (hact : Seg s.wp_pool s.head act none) (ev : String → Option Nat)
    (st : NEMUState) {fuel : Nat} (hfuel : N ≤ fuel) :
    check_wp fuel ev s st =
      .ok ({ s with wp_pool := fun i => if i ∈ act then scan_slot ev (s.wp_pool i) else s.wp_pool i },
           if act.any (fun i => scan_hit ev (s.wp_pool i)) then NEMUState.NEMU_STOP else st,
           act.filterMap (fun i => scan_report ev (s.wp_pool i))) := by
  obtain ⟨fr, hinv⟩ := reachable_act hN h hact
  exact check_wp_spec hinv ev st (le_trans hinv.length_le hfuel)

theorem scan_slot_miss {ev : String → Option Nat} {w : WP} (h : scan_hit ev w = false) :
    scan_slot ev w = w := by
  unfold scan_hit at h
  unfold scan_slot
  cases hev : ev w.exp with
  | none => rfl
  | some res =>
    simp only [hev, decide_eq_false_iff_not, ne_eq, not_not] at h
    simp [h]

theorem scan_slot_hit {ev : String → Option Nat} (hev : WordEval ev) {w : WP} {v : Nat}
    (h : ev w.exp = some v) (hne : v ≠ w.old) : (scan_slot ev w).old = v := by
  unfold scan_slot
  simp only [h, ne_eq, hne, not_false_eq_true, if_true]
  exact Nat.mod_eq_of_lt (hev _ _ h)

theorem mem_scan_report_changed {ev : String → Option Nat} {pool : Nat → WP} {l : List Nat}
    {no : Int} {e : String} {v o : Nat} :
    Out.changed no e v o ∈ l.filterMap (fun i => scan_report ev (pool i)) ↔
      ∃ i, i ∈ l ∧ no = (pool i).NO ∧ e = (pool i).exp ∧ o = (pool i).old ∧
        ev (pool i).exp = some v ∧ v ≠ (pool i).old := by
  simp only [List.mem_filterMap]
  constructor
  · rintro ⟨i, hi, hr⟩
    refine ⟨i, hi, ?_⟩
    unfold scan_report at hr
    cases hev : ev (pool i).exp with
    | none => simp [hev] at hr
    | some res =>
      by_cases hne : res = (pool i).old
      · simp [hev, hne] at hr
      · simp only [hev, ne_eq, hne, not_false_eq_true, if_true, Option.some.injEq,
          Out.changed.injEq] at hr
        obtain ⟨h1, h2, h3, h4⟩ := hr
        subst h3
        exact ⟨h1.symm, h2.symm, h4.symm, rfl, hne⟩
  · rintro ⟨i, hi, h1, h2, h3, h4, h5⟩
    refine ⟨i, hi, ?_⟩
    unfold scan_report
    simp [h4, h5, h1, h2, h3]

/-- C7: in a reachable state with active list `act`, one `check_wp` scan with a 32-bit evaluator
returns; its output is, in active-list order, what `scan_report` gives for each active slot,
so a change line `(NO, exp, new, old)` is printed exactly for the active slots whose expression
evaluates to a value other than `old`, also after an earlier slot has changed; each such slot
ends with `old` equal to the new value and every other slot is untouched; `nemu_state.state`
is `NEMU_STOP` if some slot changed and is what it was otherwise; the lists are not altered. -/
theorem C7_scan_reports_changes (N : Nat) (hN : 0 < N) (s : State) (h : Reachable N s)
    (act : List Nat) (hact : Seg s.wp_pool s.head act none) (ev : String → Option Nat)
    (hev : WordEval ev) (st : NEMUState) (fuel : Nat) (hfuel : N ≤ fuel) :
    ∃ s1 st1 out, check_wp fuel ev s st = .ok (s1, st1, out) ∧
      out = act.filterMap (fun i => scan_report ev (s.wp_pool i)) ∧
      (∀ no e v o, Out.changed no e v o ∈ out ↔
        ∃ i, i ∈ act ∧ no = (s.wp_pool i).NO ∧ e = (s.wp_pool i).exp ∧ o = (s.wp_pool i).old ∧
          ev (s.wp_pool i).exp = some v ∧ v ≠ (s.wp_pool i).old) ∧
      (∀ i v, i ∈ act → ev (s.wp_pool i).exp = some v → v ≠ (s.wp_pool i).old →
        (s1.wp_pool i).old = v) ∧
      (∀ i, i ∉ act ∨ scan_hit ev (s.wp_pool i) = false → s1.wp_pool i = s.wp_pool i) ∧
      ((∃ i, i ∈ act ∧ scan_hit ev (s.wp_pool i) = true) → st1 = NEMUState.NEMU_STOP) ∧
      ((∀ i, i ∈ act → scan_hit ev (s.wp_pool i) = false) → st1 = st) ∧
      Seg s1.wp_pool s1.head act none ∧ s1.head = s.head ∧ s1.free_ = s.free_ ∧
      s1.cur = s.cur ∧
      (∀ i, (s1.wp_pool i).NO = (s.wp_pool i).NO ∧ (s1.wp_pool i).exp = (s.wp_pool i).exp) := by
  obtain ⟨fr, hinv⟩ := reachable_act hN h hact
  refine ⟨_, _, _, check_wp_reachable hN h hact ev st hfuel, rfl, ?_, ?_, ?_, ?_, ?_,
    (check_wp_inv hinv ev).act_seg, rfl, rfl, rfl, ?_⟩
  · intro no e v o
    exact mem_scan_report_changed
  · intro i v hi hv hne
    simp only [hi, if_true]
    exact scan_slot_hit hev hv hne
  · intro i hi
    by_cases hmem : i ∈ act
    · rcases hi with hi | hi
      · exact absurd hmem hi
      · simp only [hmem, if_true]
        exact scan_slot_miss hi
    · simp [hmem]
  · rintro ⟨i, hi, hhit⟩
    have : act.any (fun i => scan_hit ev (s.wp_pool i)) = true :=
      List.any_eq_true.mpr ⟨i, hi, hhit⟩
    simp [this]
  · intro hall
    have : act.any (fun i => scan_hit ev (s.wp_pool i)) = false := by
      rw [List.any_eq_false]
      intro i hi
      simp [hall i hi]
    simp [this]
  · intro i
    by_cases hmem : i ∈ act
    · simp [hmem, scan_slot_NO, scan_slot_exp]
    · simp [hmem]

theorem sample_ev_word : WordEval sample_ev := by
  intro e v h
  unfold sample_ev at h
  split_ifs at h <;> simp at h <;> omega

/-- C7 on `sample_xy` scanned with `sample_ev`. -/
theorem C7_scan_reports_changes_witness :
    ∃ s1 st1 out, check_wp 3 sample_ev sample_xy NEMUState.NEMU_RUNNING = .ok (s1, st1, out) ∧
      out = [0, 1].filterMap (fun i => scan_report sample_ev (sample_xy.wp_pool i)) ∧
      (∀ no e v o, Out.changed no e v o ∈ out ↔
        ∃ i, i ∈ [0, 1] ∧ no = (sample_xy.wp_pool i).NO ∧ e = (sample_xy.wp_pool i).exp ∧
          o = (sample_xy.wp_pool i).old ∧
          sample_ev (sample_xy.wp_pool i).exp = some v ∧ v ≠ (sample_xy.wp_pool i).old) ∧
      (∀ i v, i ∈ [0, 1] → sample_ev (sample_xy.wp_pool i).exp = some v →
        v ≠ (sample_xy.wp_pool i).old → (s1.wp_pool i).old = v) ∧
      (∀ i, i ∉ [0, 1] ∨ scan_hit sample_ev (sample_xy.wp_pool i) = false →
        s1.wp_pool i = sample_xy.wp_pool i) ∧
      ((∃ i, i ∈ [0, 1] ∧ scan_hit sample_ev (sample_xy.wp_pool i) = true) →
        st1 = NEMUState.NEMU_STOP) ∧
      ((∀ i, i ∈ [0, 1] → scan_hit sample_ev (sample_xy.wp_pool i) = false) →
        st1 = NEMUState.NEMU_RUNNING) ∧
      Seg s1.wp_pool s1.head [0, 1] none ∧ s1.head = sample_xy.head ∧
      s1.free_ = sample_xy.free_ ∧ s1.cur = sample_xy.cur ∧
      (∀ i, (s1.wp_pool i).NO = (sample_xy.wp_pool i).NO ∧
        (s1.wp_pool i).exp = (sample_xy.wp_pool i).exp) :=
  C7_scan_reports_changes 3 (by decide) sample_xy reachable_sample_xy [0, 1] (by decide)
    sample_ev sample_ev_word NEMUState.NEMU_RUNNING 3 (by decide)

/-- C8: in a reachable state with active list `act`, if every active slot's expression
evaluates to that slot's `old`, then `check_wp` prints nothing and returns the pool state and
`nemu_state.state` exactly as they were. -/
theorem C8_scan_unchanged (N : Nat) (hN : 0 < N) (s : State) (h : Reachable N s)
    (act : List Nat) (hact : Seg s.wp_pool s.head act none) (ev : String → Option Nat)
    (hsame : ∀ i, i ∈ act → ev (s.wp_pool i).exp = some (s.wp_pool i).old)
    (st : NEMUState) (fuel : Nat) (hfuel : N ≤ fuel) :
    check_wp fuel ev s st = .ok (s, st, []) := by
  rw [check_wp_reachable hN h hact ev st hfuel]
  have hmiss : ∀ i, i ∈ act → scan_hit ev (s.wp_pool i) = false := by
    intro i hi
    simp [scan_hit, hsame i hi]
  have h1 : (fun i => if i ∈ act then scan_slot ev (s.wp_pool i) else s.wp_pool i)
      = s.wp_pool := by
    funext i
    by_cases hi : i ∈ act
    · simp only [hi, if_true]
      exact scan_slot_miss (hmiss i hi)
    · simp [hi]
  have h2 : act.any (fun i => scan_hit ev (s.wp_pool i)) = false := by
    rw [List.any_eq_false]
    intro i hi
    simp [hmiss i hi]
  have h3 : act.filterMap (fun i => scan_report ev (s.wp_pool i)) = [] := by
    rw [List.filterMap_eq_nil_iff]
    intro i hi
    simp [scan_report, hsame i hi]
  rw [h1, h2, h3]
  rfl

/-- C8 on `sample_scanned` scanned with `steady_ev`. -/
theorem C8_scan_unchanged_witness :
    check_wp 3 steady_ev sample_scanned NEMUState.NEMU_RUNNING
      = .ok (sample_scanned, NEMUState.NEMU_RUNNING, []) :=
  C8_scan_unchanged 3 (by decide) sample_scanned reachable_sample_scanned [0, 1] (by decide)
    steady_ev (by
      intro i hi
      simp only [List.mem_cons, List.mem_singleton, List.not_mem_nil, or_false] at hi
      rcases hi with rfl | rfl <;> rfl)
    NEMUState.NEMU_RUNNING 3 (by decide)

theorem filterMap_agree {β : Type} {f g : Nat → Option β} {l : List Nat}
    (h : ∀ i, i ∈ l → f i = g i) : l.filterMap f = l.filterMap g := by
  induction l with
  | nil => rfl
  | cons x xs ih =>
    simp only [List.filterMap_cons, h x (List.mem_cons_self x xs)]
    rw [ih (fun i hi => h i (List.mem_cons_of_mem x hi))]

theorem any_agree {f g : Nat → Bool} {l : List Nat}
    (h : ∀ i, i ∈ l → f i = g i) : l.any f = l.any g := by
  induction l with
  | nil => rfl
  | cons x xs ih =>
    simp only [List.any_cons, h x (List.mem_cons_self x xs)]
    rw [ih (fun i hi => h i (List.mem_cons_of_mem x hi))]

theorem reachable_sample_bad : Reachable 3 sample_bad :=
  Reachable.new_wp
    (Reachable.new_wp reachable_sample_x
      (rfl : new_wp "bad" sample_x = .ok (state_of (new_wp "bad" sample_x), some 1)))
    (rfl : new_wp "y" (state_of (new_wp "bad" sample_x)) = .ok (sample_bad, some 2))

/-- C9: in a reachable state whose active list is `a ++ x :: b`, if the expression of slot `x`
does not evaluate, `check_wp` returns after printing the reports of `a`, then the invalid
notice with the `NO` of `x`, then the reports of `b`; slot `x` is not written; the final
`nemu_state.state` depends on the slots of `a` and `b` only; every slot of `b` is scanned;
and a scan of any reachable pool whose active list is `a ++ b` with the same slot contents
gives the same reports without the notice, the same execution state and the same slots. -/
theorem C9_invalid_expression (N : Nat) (hN : 0 < N) (s : State) (h : Reachable N s)
    (a b : List Nat) (x : Nat) (hact : Seg s.wp_pool s.head (a ++ x :: b) none)
    (ev : String → Option Nat) (hx : ev (s.wp_pool x).exp = none)
    (st : NEMUState) (fuel : Nat) (hfuel : N ≤ fuel) :
    ∃ s1 st1, check_wp fuel ev s st = .ok (s1, st1,
        a.filterMap (fun i => scan_report ev (s.wp_pool i)) ++
          Out.invalid (s.wp_pool x).NO :: b.filterMap (fun i => scan_report ev (s.wp_pool i))) ∧
      s1.wp_pool x = s.wp_pool x ∧
      st1 = (if (a ++ b).any (fun i => scan_hit ev (s.wp_pool i)) then NEMUState.NEMU_STOP
             else st) ∧
      (∀ i, i ∈ a ++ b → s1.wp_pool i = scan_slot ev (s.wp_pool i)) ∧
      (∀ s2, Reachable N s2 → Seg s2.wp_pool s2.head (a ++ b) none →
        (∀ i, i ∈ a ++ b → s2.wp_pool i = s.wp_pool i) →
        ∃ s3, check_wp fuel ev s2 st = .ok (s3, st1,
            a.filterMap (fun i => scan_report ev (s.wp_pool i)) ++
              b.filterMap (fun i => scan_report ev (s.wp_pool i))) ∧
          ∀ i, i ∈ a ++ b → s3.wp_pool i = s1.wp_pool i) := by
  have hrep : scan_report ev (s.wp_pool x) = some (Out.invalid (s.wp_pool x).NO) := by
    simp [scan_report, hx]
  have hhit : scan_hit ev (s.wp_pool x) = false := by
    simp [scan_hit, hx]
  have hany : (a ++ x :: b).any (fun i => scan_hit ev (s.wp_pool i))
      = (a ++ b).any (fun i => scan_hit ev (s.wp_pool i)) := by
    simp only [List.any_append, List.any_cons, hhit, Bool.false_or]
  have hmem : ∀ i, i ∈ a ++ b → i ∈ a ++ x :: b := by
    intro i hi
    rcases List.mem_append.mp hi with hi | hi
    · exact List.mem_append_left _ hi
    · exact List.mem_append_right _ (List.mem_cons_of_mem x hi)
  refine ⟨{ s with wp_pool := fun i => if i ∈ a ++ x :: b then scan_slot ev (s.wp_pool i)
                                        else s.wp_pool i }, _, ?_, ?_, rfl, ?_, ?_⟩
  · rw [check_wp_reachable hN h hact ev st hfuel, hany]
    simp only [List.filterMap_append, List.filterMap_cons, hrep]
  · show (if x ∈ a ++ x :: b then scan_slot ev (s.wp_pool x) else s.wp_pool x) = s.wp_pool x
    simp only [List.mem_append, List.mem_cons, true_or, or_true, if_true]
    exact scan_slot_miss hhit
  · intro i hi
    show (if i ∈ a ++ x :: b then scan_slot ev (s.wp_pool i) else s.wp_pool i) = _
    simp only [hmem i hi, if_true]
  · intro s2 h2 hact2 hag
    refine ⟨{ s2 with wp_pool := fun i => if i ∈ a ++ b then scan_slot ev (s2.wp_pool i)
                                            else s2.wp_pool i }, ?_, ?_⟩
    · rw [check_wp_reachable hN h2 hact2 ev st hfuel]
      rw [filterMap_agree (g := fun i => scan_report ev (s.wp_pool i))
        (fun i hi => by simp only [hag i hi])]
      rw [any_agree (g := fun i => scan_hit ev (s.wp_pool i))
        (fun i hi => by simp only [hag i hi])]
      simp only [List.filterMap_append]
    · intro i hi
      show (if i ∈ a ++ b then scan_slot ev (s2.wp_pool i) else s2.wp_pool i)
        = (if i ∈ a ++ x :: b then scan_slot ev (s.wp_pool i) else s.wp_pool i)
      simp only [hi, hmem i hi, if_true, hag i hi]

/-- C9 on `sample_bad`, whose middle watchpoint does not evaluate under `sample_ev`. -/
theorem C9_invalid_expression_witness :
    ∃ s1 st1, check_wp 3 sample_ev sample_bad NEMUState.NEMU_RUNNING = .ok (s1, st1,
        [0].filterMap (fun i => scan_report sample_ev (sample_bad.wp_pool i)) ++
          Out.invalid (sample_bad.wp_pool 1).NO ::
            [2].filterMap (fun i => scan_report sample_ev (sample_bad.wp_pool i))) ∧
      s1.wp_pool 1 = sample_bad.wp_pool 1 ∧
      st1 = (if ([0] ++ [2]).any (fun i => scan_hit sample_ev (sample_bad.wp_pool i))
             then NEMUState.NEMU_STOP else NEMUState.NEMU_RUNNING) ∧
      (∀ i, i ∈ [0] ++ [2] → s1.wp_pool i = scan_slot sample_ev (sample_bad.wp_pool i)) ∧
      (∀ s2, Reachable 3 s2 → Seg s2.wp_pool s2.head ([0] ++ [2]) none →
        (∀ i, i ∈ [0] ++ [2] → s2.wp_pool i = sample_bad.wp_pool i) →
        ∃ s3, check_wp 3 sample_ev s2 NEMUState.NEMU_RUNNING = .ok (s3, st1,
            [0].filterMap (fun i => scan_report sample_ev (sample_bad.wp_pool i)) ++
              [2].filterMap (fun i => scan_report sample_ev (sample_bad.wp_pool i))) ∧
          ∀ i, i ∈ [0] ++ [2] → s3.wp_pool i = s1.wp_pool i) :=
  C9_invalid_expression 3 (by decide) sample_bad reachable_sample_bad [0] [2] 1 (by decide)
    sample_ev rfl NEMUState.NEMU_RUNNING 3 (by decide)

/-- C10: whatever the pool state before, after `init_wp_pool` the active list is empty (so
`print_wp` finds no watchpoint), the free list links the slots `0, 1, ..., N-1` in index
order, slot `i` has id `i` and an empty expression, and the next `N` allocations return the
slots `0..N-1` in this order, slot `k` carrying the id `k`. -/
theorem C10_init_resets (N : Nat) (hN : 0 < N) (s0 : State) (fuel : Nat) (es : List String)
    (hlen : es.length = N) (hshort : ∀ e, e ∈ es → e.utf8ByteSize < 128) :
    (init_wp_pool N s0).head = none ∧
      Seg (init_wp_pool N s0).wp_pool (init_wp_pool N s0).free_ (List.range N) none ∧
      (∀ i, i < N → ((init_wp_pool N s0).wp_pool i).NO = (i : Int) ∧
        ((init_wp_pool N s0).wp_pool i).exp = "") ∧
      print_wp fuel (init_wp_pool N s0) = .ok [Out.no_watchpoint] ∧
      ∃ s, new_wp_seq es (init_wp_pool N s0) = .ok (s, (List.range N).map some) ∧
        ∀ k, k < N → (s.wp_pool k).NO = (k : Int) := by
  have hinv := init_inv N hN s0
  refine ⟨rfl, hinv.free_seg, ?_, rfl, ?_⟩
  · intro i hi
    refine ⟨hinv.NO_eq i hi, ?_⟩
    simp [init_wp_pool, init_wp_slots_apply, hi]
  · obtain ⟨s, h1, hinv1⟩ := new_wp_seq_fill es hlen hshort hinv
    exact ⟨s, h1, hinv1.NO_eq⟩

/-- C10 on `sample_scanned`, a pool with two active watchpoints, reset to 3 slots. -/
theorem C10_init_resets_witness :
    (init_wp_pool 3 sample_scanned).head = none ∧
      Seg (init_wp_pool 3 sample_scanned).wp_pool (init_wp_pool 3 sample_scanned).free_
        (List.range 3) none ∧
      (∀ i, i < 3 → ((init_wp_pool 3 sample_scanned).wp_pool i).NO = (i : Int) ∧
        ((init_wp_pool 3 sample_scanned).wp_pool i).exp = "") ∧
      print_wp 3 (init_wp_pool 3 sample_scanned) = .ok [Out.no_watchpoint] ∧
      ∃ s, new_wp_seq ["a", "b", "c"] (init_wp_pool 3 sample_scanned)
          = .ok (s, (List.range 3).map some) ∧
        ∀ k, k < 3 → (s.wp_pool k).NO = (k : Int) :=
  C10_init_resets 3 (by decide) sample_scanned 3 ["a", "b", "c"] rfl (by
    intro e he
    simp only [List.mem_cons, List.mem_singleton, List.not_mem_nil, or_false] at he
    rcases he with rfl | rfl | rfl <;> decide)

theorem reachable_lists {N : Nat} (hN : 0 < N) {s : State} (h : Reachable N s)
    {act fr : List Nat} (hact : Seg s.wp_pool s.head act none)
    (hfree : Seg s.wp_pool s.free_ fr none) : PoolInv N s act fr := by
  obtain ⟨act1, fr1, hinv⟩ := reachable_inv hN h
  have e1 : act1 = act := Seg_unique hinv.act_seg hact
  have e2 : fr1 = fr := Seg_unique hinv.free_seg hfree
  subst e1
  subst e2
  exact hinv

/-- C16: in a reachable state, if `free_wp` called with the id of the active slot `t` returns
a state in which `t` is no longer on the active list, then the next `new_wp` call (for a text
shorter than 128 bytes) returns that same slot `t`, which still carries the same id. -/
theorem C16_lifo_reuse (N : Nat) (hN : 0 < N) (s : State) (h : Reachable N s)
    (act : List Nat) (hact : Seg s.wp_pool s.head act none) (t : Nat) (ht : t ∈ act)
    (fuel : Nat) (s1 : State) (o : List Out)
    (hstep : free_wp fuel (s.wp_pool t).NO s = .ok (s1, o))
    (act1 : List Nat) (hact1 : Seg s1.wp_pool s1.head act1 none) (hmoved : t ∉ act1)
    (e : String) (he : e.utf8ByteSize < 128) :
    ∃ s2, new_wp e s1 = .ok (s2, some t) ∧ (s2.wp_pool t).NO = (s.wp_pool t).NO ∧
      (s2.wp_pool t).exp = e := by
  obtain ⟨fr, hinv⟩ := reachable_act hN h hact
  cases fr with
  | nil =>
    rw [free_wp_full hinv fuel _] at hstep
    cases hstep
    exact absurd (Seg_unique hact hact1 ▸ ht) hmoved
  | cons f fr =>
    obtain ⟨a, b, hab⟩ := List.append_of_mem ht
    subst hab
    have hNO : (s.wp_pool t).NO = (t : Int) := hinv.NO_eq t (hinv.lt (by simp))
    have hstep1 := free_wp_mono hstep (a ++ t :: b).length
    rw [hNO] at hstep1
    obtain ⟨s3, h3, hinv3, hfld3⟩ := free_wp_spec hinv (Nat.le_add_left _ fuel)
    rw [h3] at hstep1
    cases hstep1
    obtain ⟨s2, h2, -, hfld2⟩ := new_wp_spec hinv3 e he
    refine ⟨s2, h2, ?_, ?_⟩
    · rw [(hfld2 t).1, (hfld3 t).1]
    · simpa using (hfld2 t).2.2

/-- C16 on `sample_scanned`: `d 0` frees slot 0 and the next `w z` gets slot 0 again. -/
theorem C16_lifo_reuse_witness :
    ∃ s2, new_wp "z" sample_freed = .ok (s2, some 0) ∧
      (s2.wp_pool 0).NO = (sample_scanned.wp_pool 0).NO ∧ (s2.wp_pool 0).exp = "z" :=
  C16_lifo_reuse 3 (by decide) sample_scanned reachable_sample_scanned [0, 1] (by decide) 0
    (by decide) 3 sample_freed [] rfl [1] (by decide) (by decide) "z" (by decide)

theorem find_NO_total {pool : Nat → WP} (id : Int) {l : List Nat} {p : Option Nat} {fuel : Nat}
    (hs : Seg pool p l none) (hfuel : l.length ≤ fuel) :
    ∃ r, find_NO pool id fuel p = .ok r := by
  induction l generalizing p fuel with
  | nil =>
    have hp : p = none := hs
    subst hp
    exact ⟨none, by cases fuel <;> rfl⟩
  | cons x xs ih =>
    have hp : p = some x := hs.1
    have hx : Seg pool (pool x).next xs none := hs.2
    subst hp
    cases fuel with
    | zero => simp at hfuel
    | succ k =>
      simp only [find_NO]
      by_cases hc : (pool x).NO = id
      · exact ⟨some x, by simp [hc]⟩
      · simp only [hc, if_false]
        exact ih hx (by simpa using hfuel)

theorem search_loop_total {pool : Nat → WP} (wp : Option Nat) {l : List Nat} {p : Option Nat}
    {fuel : Nat} (hs : Seg pool p l none) (hfuel : l.length ≤ fuel) :
    ∃ r, search_loop pool wp fuel p = .ok r := by
  induction l generalizing p fuel with
  | nil =>
    have hp : p = none := hs
    subst hp
    exact ⟨none, by cases fuel <;> rfl⟩
  | cons x xs ih =>
    have hp : p = some x := hs.1
    have hx : Seg pool (pool x).next xs none := hs.2
    subst hp
    cases fuel with
    | zero => simp at hfuel
    | succ k =>
      simp only [search_loop]
      by_cases hc : (pool x).next = wp
      · exact ⟨some x, by simp [hc]⟩
      · simp only [hc, if_false]
        exact ih hx (by simpa using hfuel)

theorem print_wp_spec {N : Nat} {s : State} {act fr : List Nat} (h : PoolInv N s act fr)
    {fuel : Nat} (hfuel : act.length ≤ fuel) :
    print_wp fuel s = .ok (if act = [] then [Out.no_watchpoint]
      else Out.header :: act.map (fun i => row_of (s.wp_pool i))) := by
  unfold print_wp
  cases act with
  | nil =>
    have hh : s.head = none := h.act_seg
    simp [hh]
  | cons x xs =>
    have hh : s.head = some x := h.act_seg.1
    rw [print_rows_spec h.act_seg hfuel]
    simp [hh]

/-- C17: in a reachable state of a pool of `N` slots the active list is a `NULL`-terminated
chain of at most `N` distinct slots, and with fuel for `N` slot visits (or more) every walk
returns: the id search of `free_wp`, `search_` for any pointer, `free_wp` as a whole (with its
`search_` call on the updated pool), the scan of `check_wp` and the listing of `print_wp`. -/
theorem C17_walks_terminate (N : Nat) (hN : 0 < N) (s : State) (h : Reachable N s) :
    (∃ act, Seg s.wp_pool s.head act none ∧ act.Nodup ∧ act.length ≤ N) ∧
    ∀ fuel, N ≤ fuel →
      (∀ id, ∃ r, find_NO s.wp_pool id fuel s.head = .ok r) ∧
      (∀ wp, ∃ r, search_ fuel s wp = .ok r) ∧
      (∀ id, ∃ r, free_wp fuel id s = .ok r) ∧
      (∀ ev st, ∃ r, check_wp fuel ev s st = .ok r) ∧
      (∃ r, print_wp fuel s = .ok r) := by
  obtain ⟨act, fr, hinv⟩ := reachable_inv hN h
  refine ⟨⟨act, hinv.act_seg, (List.nodup_append.mp hinv.nodup).1, hinv.length_le⟩, ?_⟩
  intro fuel hfuel
  have hlen : act.length ≤ fuel := le_trans hinv.length_le hfuel
  refine ⟨?_, ?_, ?_, ?_, ?_⟩
  · intro id
    exact find_NO_total id hinv.act_seg hlen
  · intro wp
    exact search_loop_total wp hinv.act_seg hlen
  · intro id
    obtain ⟨s1, o, -, -, h1, -⟩ := free_wp_total hinv hlen id
    exact ⟨_, h1⟩
  · intro ev st
    exact ⟨_, check_wp_spec hinv ev st hlen⟩
  · exact ⟨_, print_wp_spec hinv hlen⟩

/-- C17 on `sample_scanned`, a pool of 3 slots with two active watchpoints. -/
theorem C17_walks_terminate_witness :
    (∃ act, Seg sample_scanned.wp_pool sample_scanned.head act none ∧ act.Nodup ∧
      act.length ≤ 3) ∧
    ∀ fuel, 3 ≤ fuel →
      (∀ id, ∃ r, find_NO sample_scanned.wp_pool id fuel sample_scanned.head = .ok r) ∧
      (∀ wp, ∃ r, search_ fuel sample_scanned wp = .ok r) ∧
      (∀ id, ∃ r, free_wp fuel id sample_scanned = .ok r) ∧
      (∀ ev st, ∃ r, check_wp fuel ev sample_scanned st = .ok r) ∧
      (∃ r, print_wp fuel sample_scanned = .ok r) :=
  C17_walks_terminate 3 (by decide) sample_scanned reachable_sample_scanned

/-- C18: in a reachable state whose free list is the non-empty chain `f :: fr` and whose
active list is `a ++ t :: b`, `free_wp` called with the id of `t` returns without printing;
afterwards the active list is `a ++ b`, the free list is `t :: f :: fr`, and every slot has
the `NO`, `exp` and `old` it had before. -/
theorem C18_free_wp_removes (N : Nat) (hN : 0 < N) (s : State) (h : Reachable N s)
    (a b fr : List Nat) (t f : Nat) (hact : Seg s.wp_pool s.head (a ++ t :: b) none)
    (hfree : Seg s.wp_pool s.free_ (f :: fr) none) (fuel : Nat) (hfuel : N ≤ fuel) :
    ∃ s1, free_wp fuel (s.wp_pool t).NO s = .ok (s1, []) ∧
      Seg s1.wp_pool s1.head (a ++ b) none ∧
      Seg s1.wp_pool s1.free_ (t :: f :: fr) none ∧
      (∀ x, (a ++ b).getLast? = some x → s1.cur = some x) ∧
      ∀ i, (s1.wp_pool i).NO = (s.wp_pool i).NO ∧ (s1.wp_pool i).exp = (s.wp_pool i).exp ∧
        (s1.wp_pool i).old = (s.wp_pool i).old := by
  have hinv := reachable_lists hN h hact hfree
  have hNO : (s.wp_pool t).NO = (t : Int) := hinv.NO_eq t (hinv.lt (by simp))
  rw [hNO]
  obtain ⟨s1, h1, hinv1, hfld⟩ := free_wp_spec hinv (le_trans hinv.length_le hfuel)
  exact ⟨s1, h1, hinv1.act_seg, hinv1.free_seg, hinv1.cur_last, hfld⟩

/-- C18 on `sample_scanned`: deleting the head slot 0 of the active list `[0, 1]`. -/
theorem C18_free_wp_removes_witness :
    ∃ s1, free_wp 3 (sample_scanned.wp_pool 0).NO sample_scanned = .ok (s1, []) ∧
      Seg s1.wp_pool s1.head ([] ++ [1]) none ∧
      Seg s1.wp_pool s1.free_ (0 :: 2 :: []) none ∧
      (∀ x, ([] ++ [1]).getLast? = some x → s1.cur = some x) ∧
      ∀ i, (s1.wp_pool i).NO = (sample_scanned.wp_pool i).NO ∧
        (s1.wp_pool i).exp = (sample_scanned.wp_pool i).exp ∧
        (s1.wp_pool i).old = (sample_scanned.wp_pool i).old :=
  C18_free_wp_removes 3 (by decide) sample_scanned reachable_sample_scanned [] [1] [] 0 2
    (by decide) (by decide) 3 (by decide)

/-- C19: in a reachable state whose active list is `a ++ p :: t :: b`, so that `t` is active
and not the head, `search_` for `t` returns the predecessor `p`, both on the state itself
(interior branch) and on the state in which `free_wp` has already executed
`tmp->next = free_; free_ = tmp;` (tail branch); and `free_wp` with the id of `t` returns
without fault. -/
theorem C19_search_finds_predecessor (N : Nat) (hN : 0 < N) (s : State) (h : Reachable N s)
    (a b : List Nat) (p t : Nat) (hact : Seg s.wp_pool s.head (a ++ p :: t :: b) none)
    (fuel : Nat) (hfuel : N ≤ fuel) :
    search_ fuel s (some t) = .ok (some p) ∧
      search_ fuel { wp_pool := set_next s.wp_pool t s.free_, head := s.head, free_ := some t,
                     cur := s.cur } (some t) = .ok (some p) ∧
      ∃ r, free_wp fuel (s.wp_pool t).NO s = .ok r := by
  obtain ⟨fr, hinv⟩ := reachable_act hN h hact
  have e1 : a ++ p :: t :: b = (a ++ [p]) ++ t :: b := by simp
  have hnd := hinv.nodup
  rw [e1] at hnd hact
  obtain ⟨hta, -, -, -, -, hnda, -, -⟩ := nodup_split hnd
  obtain ⟨m, hsa, hm, -⟩ := Seg_append.mp hact
  have hmt : m = some t := hm
  subst hmt
  have hnext := Seg_next_ne hsa hnda hta
  have hlen : a.length + 1 ≤ fuel := by
    have := hinv.length_le
    simp only [List.length_append, List.length_cons] at this
    omega
  refine ⟨search_loop_spec hsa hnext hlen, ?_, ?_⟩
  · refine search_loop_spec (Seg_frame ?_ hsa) ?_ hlen
    · intro i hi
      have : i ≠ t := fun e => hta (e ▸ hi)
      simp [set_next, Function.update_noteq this]
    · intro i hi
      have : i ≠ t := fun e => hta (List.mem_append_left _ (e ▸ hi))
      simpa [set_next, Function.update_noteq this] using hnext i hi
  · obtain ⟨s1, o, -, -, h1, -⟩ := free_wp_total hinv (le_trans hinv.length_le hfuel)
      (s.wp_pool t).NO
    exact ⟨_, h1⟩

/-- C19 on `sample_scanned`: slot 1 is the tail of `[0, 1]` and its predecessor is slot 0. -/
theorem C19_search_finds_predecessor_witness :
    search_ 3 sample_scanned (some 1) = .ok (some 0) ∧
      search_ 3 { wp_pool := set_next sample_scanned.wp_pool 1 sample_scanned.free_,
                  head := sample_scanned.head, free_ := some 1,
                  cur := sample_scanned.cur } (some 1) = .ok (some 0) ∧
      ∃ r, free_wp 3 (sample_scanned.wp_pool 1).NO sample_scanned = .ok r :=
  C19_search_finds_predecessor 3 (by decide) sample_scanned reachable_sample_scanned [] [] 0 1
    (by decide) 3 (by decide)

theorem scan_hit_after {ev : String → Option Nat} (hev : WordEval ev) (w : WP) :
    scan_hit ev (scan_slot ev w) = false := by
  unfold scan_hit
  rw [scan_slot_exp]
  cases h : ev w.exp with
  | none => rfl
  | some v =>
    by_cases hne : v = w.old
    · simp [scan_slot, h, hne]
    · simp [scan_slot_hit hev h hne]

theorem scan_slot_idem {ev : String → Option Nat} (hev : WordEval ev) (w : WP) :
    scan_slot ev (scan_slot ev w) = scan_slot ev w :=
  scan_slot_miss (scan_hit_after hev w)

theorem scan_report_cases (ev : String → Option Nat) (w : WP) {o : Out}
    (h : scan_report ev w = some o) :
    (∃ no, o = Out.invalid no) ∨ ∃ no e v old, o = Out.changed no e v old := by
  unfold scan_report at h
  cases hv : ev w.exp with
  | none =>
    simp only [hv, Option.some.injEq] at h
    exact Or.inl ⟨_, h.symm⟩
  | some v =>
    by_cases hne : v = w.old
    · simp [hv, hne] at h
    · simp only [hv, ne_eq, hne, not_false_eq_true, if_true, Option.some.injEq] at h
      exact Or.inr ⟨_, _, _, _, h.symm⟩

theorem scan_report_after {ev : String → Option Nat} (hev : WordEval ev) (w : WP)
    (no : Int) (e : String) (v o : Nat) :
    scan_report ev (scan_slot ev w) ≠ some (Out.changed no e v o) := by
  unfold scan_report
  rw [scan_slot_exp]
  cases h : ev w.exp with
  | none => simp
  | some v1 =>
    by_cases hne : v1 = w.old
    · simp [scan_slot, h, hne]
    · simp [scan_slot_hit hev h hne]

/-- C20: in a reachable state, after one `check_wp` scan with a 32-bit evaluator, a second
scan with the same evaluator returns the pool state exactly as the first scan left it, leaves
`nemu_state.state` as it finds it, and prints no change line (only the invalid notices of
the slots whose expression does not evaluate). -/
theorem C20_scan_idempotent (N : Nat) (hN : 0 < N) (s : State) (h : Reachable N s)
    (ev : String → Option Nat) (hev : WordEval ev) (st : NEMUState) (fuel : Nat)
    (hfuel : N ≤ fuel) :
    ∃ s1 st1 out1, check_wp fuel ev s st = .ok (s1, st1, out1) ∧
      ∀ st2, ∃ out2, check_wp fuel ev s1 st2 = .ok (s1, st2, out2) ∧
        (∀ no e v o, Out.changed no e v o ∉ out2) ∧
        ∀ o, o ∈ out2 → ∃ no, o = Out.invalid no := by
  obtain ⟨act, fr, hinv⟩ := reachable_inv hN h
  have hlen : act.length ≤ fuel := le_trans hinv.length_le hfuel
  have hinv1 := check_wp_inv hinv ev
  refine ⟨_, _, _, check_wp_spec hinv ev st hlen, ?_⟩
  intro st2
  refine ⟨act.filterMap (fun i => scan_report ev
    (if i ∈ act then scan_slot ev (s.wp_pool i) else s.wp_pool i)), ?_, ?_, ?_⟩
  · rw [check_wp_spec hinv1 ev st2 hlen]
    have h1 : (fun i => if i ∈ act then
          scan_slot ev (if i ∈ act then scan_slot ev (s.wp_pool i) else s.wp_pool i)
        else (if i ∈ act then scan_slot ev (s.wp_pool i) else s.wp_pool i))
        = fun i => if i ∈ act then scan_slot ev (s.wp_pool i) else s.wp_pool i := by
      funext i
      by_cases hi : i ∈ act
      · simp only [hi, if_true]
        exact scan_slot_idem hev _
      · simp [hi]
    have h2 : act.any (fun i => scan_hit ev
        (if i ∈ act then scan_slot ev (s.wp_pool i) else s.wp_pool i)) = false := by
      rw [List.any_eq_false]
      intro i hi
      simp [hi, scan_hit_after hev]
    simp only [h1, h2]
    rfl
  · intro no e v o hmem
    obtain ⟨i, hi, hr⟩ := List.mem_filterMap.mp hmem
    simp only [hi, if_true] at hr
    exact scan_report_after hev _ no e v o hr
  · intro o hmem
    obtain ⟨i, hi, hr⟩ := List.mem_filterMap.mp hmem
    simp only [hi, if_true] at hr
    rcases scan_report_cases ev _ hr with hinv2 | ⟨no, e, v, old, hch⟩
    · exact hinv2
    · subst hch
      exact absurd hr (scan_report_after hev _ no e v old)

/-- C20 on `sample_bad` scanned twice with `sample_ev`. -/
theorem C20_scan_idempotent_witness :
    ∃ s1 st1 out1, check_wp 3 sample_ev sample_bad NEMUState.NEMU_RUNNING
        = .ok (s1, st1, out1) ∧
      ∀ st2, ∃ out2, check_wp 3 sample_ev s1 st2 = .ok (s1, st2, out2) ∧
        (∀ no e v o, Out.changed no e v o ∉ out2) ∧
        ∀ o, o ∈ out2 → ∃ no, o = Out.invalid no :=
  C20_scan_idempotent 3 (by decide) sample_bad reachable_sample_bad sample_ev sample_ev_word
    NEMUState.NEMU_RUNNING 3 (by decide)

theorem lookup_miss (ext : Ext) (fuel : Nat) (cmd : String) (args : Option String)
    (saved : List Char) (m : Monitor) (tbl : List Entry)
    (h : ∀ e, e ∈ tbl → cmd ≠ e.name) :
    lookup_loop ext fuel cmd args saved m tbl = .ok (m, false, [Print.unknown_command cmd]) := by
  induction tbl with
  | nil => rfl
  | cons e es ih =>
    simp only [lookup_loop, h e (List.mem_cons_self e es), if_false]
    exact ih (fun e1 he1 => h e1 (List.mem_cons_of_mem e he1))

theorem lookup_hit (ext : Ext) (fuel : Nat) (args : Option String) (saved : List Char)
    (m : Monitor) (tbl : List Entry) (hnd : (tbl.map Entry.name).Nodup) (e : Entry)
    (he : e ∈ tbl) :
    lookup_loop ext fuel e.name args saved m tbl
      = after_handler (run_handler ext fuel e.handler args saved m) := by
  induction tbl with
  | nil => simp at he
  | cons e1 es ih =>
    simp only [List.map_cons, List.nodup_cons] at hnd
    rcases List.mem_cons.mp he with h1 | h1
    · subst h1
      simp [lookup_loop]
    · have hne : e.name ≠ e1.name := by
        intro heq
        exact hnd.1 (heq ▸ List.mem_map_of_mem Entry.name h1)
      simp only [lookup_loop, hne, if_false]
      exact ih hnd.2 h1

theorem cmd_table_names :
    cmd_table.map Entry.name = ["help", "c", "q", "si", "info", "x", "p", "w", "d"] := rfl

theorem cmd_table_nodup : (cmd_table.map Entry.name).Nodup := by
  rw [cmd_table_names]
  decide

theorem x_rows_mem (ext : Ext) (cnt : Nat) (addr : Int) (o : Print) (h : o ∈ x_rows ext cnt addr) :
    (∃ a b0 b1 b2 b3, o = Print.x_hex a b0 b1 b2 b3) ∨ ∃ b0 b1 b2 b3, o = Print.x_dec b0 b1 b2 b3 := by
  induction cnt generalizing addr with
  | zero => simp [x_rows] at h
  | succ n ih =>
    simp only [x_rows, List.mem_cons] at h
    rcases h with h | h | h
    · exact Or.inl ⟨_, _, _, _, _, h⟩
    · exact Or.inr ⟨_, _, _, _, h⟩
    · exact ih _ h

theorem help_loop_mem (arg : String) (tbl : List Entry) (t : String)
    (h : Print.help_unknown t ∈ help_loop arg tbl) : t = arg ∧ ∀ e, e ∈ tbl → arg ≠ e.name := by
  induction tbl with
  | nil =>
    simp only [help_loop, List.mem_singleton, Print.help_unknown.injEq] at h
    exact ⟨h, by simp⟩
  | cons e es ih =>
    by_cases hc : arg = e.name
    · simp [help_loop, hc] at h
    · simp only [help_loop, hc, if_false] at h
      obtain ⟨h1, h2⟩ := ih h
      refine ⟨h1, ?_⟩
      intro e1 he1
      rcases List.mem_cons.mp he1 with h3 | h3
      · rw [h3]
        exact hc
      · exact h2 e1 h3

theorem help_loop_no_unknown (arg : String) (tbl : List Entry) (t : String) :
    Print.unknown_command t ∉ help_loop arg tbl := by
  induction tbl with
  | nil => simp [help_loop]
  | cons e es ih =>
    by_cases hc : arg = e.name
    · simp [help_loop, hc]
    · simpa [help_loop, hc] using ih

theorem plain_facts {hd : Cmd} (hq : hd ≠ Cmd.q) (m1 : Monitor) {out : List Print}
    (hout : ∀ o, o ∈ out → (∀ t, o ≠ Print.unknown_command t) ∧ ∀ t, o ≠ Print.help_unknown t) :
    ((0 : Int) < 0 ↔ hd = Cmd.q) ∧ (hd = Cmd.q → m1.nemu_state = NEMUState.NEMU_QUIT) ∧
      (∀ t, Print.unknown_command t ∉ out) ∧
      (∀ t, Print.help_unknown t ∈ out → hd = Cmd.help ∧ ∀ e, e ∈ cmd_table → t ≠ e.name) := by
  refine ⟨by simp [hq], fun h => absurd h hq, ?_, ?_⟩
  · intro t ht
    exact (hout _ ht).1 t rfl
  · intro t ht
    exact absurd rfl ((hout _ ht).2 t)

/-- What every handler guarantees when it returns: the value is negative only for `cmd_q`,
which has set `NEMU_QUIT`; the dispatcher's unknown-command line is never printed by a
handler; and only `cmd_help` prints its own unknown-command line, for a name that is not in
the table. -/
theorem handler_facts {ext : Ext} {fuel : Nat} {hd : Cmd} {args : Option String}
    {saved : List Char} {m m1 : Monitor} {ret : Int} {out : List Print}
    (h : run_handler ext fuel hd args saved m = .ok (m1, ret, out)) :
    (ret < 0 ↔ hd = Cmd.q) ∧ (hd = Cmd.q → m1.nemu_state = NEMUState.NEMU_QUIT) ∧
      (∀ t, Print.unknown_command t ∉ out) ∧
      (∀ t, Print.help_unknown t ∈ out → hd = Cmd.help ∧ ∀ e, e ∈ cmd_table → t ≠ e.name) := by
  cases hd with
  | help =>
    simp only [run_handler, cmd_help] at h
    cases hs : (strtok saved).1 with
    | none =>
      simp only [hs, Except.ok.injEq, Prod.mk.injEq] at h
      obtain ⟨-, h2, h3⟩ := h
      subst h2
      subst h3
      refine ⟨by simp, by simp, ?_, ?_⟩
      · intro t
        simp
      · intro t ht
        simp at ht
    | some arg =>
      simp only [hs, Except.ok.injEq, Prod.mk.injEq] at h
      obtain ⟨-, h2, h3⟩ := h
      subst h2
      subst h3
      refine ⟨by simp, by simp, fun t => help_loop_no_unknown _ _ t, ?_⟩
      intro t ht
      obtain ⟨h1, h2⟩ := help_loop_mem _ _ t ht
      exact ⟨rfl, fun e he => h1 ▸ h2 e he⟩
  | c =>
    simp only [run_handler, cmd_c, Except.ok.injEq, Prod.mk.injEq] at h
    obtain ⟨-, h2, h3⟩ := h
    subst h2
    subst h3
    refine ⟨by simp, by simp, ?_, ?_⟩
    · intro t
      simp
    · intro t ht
      simp at ht
  | q =>
    simp only [run_handler, cmd_q, Except.ok.injEq, Prod.mk.injEq] at h
    obtain ⟨h1, h2, h3⟩ := h
    subst h1
    subst h2
    subst h3
    refine ⟨by simp, by simp, ?_, ?_⟩
    · intro t
      simp
    · intro t ht
      simp at ht
  | si =>
    simp only [run_handler, cmd_si, Except.ok.injEq, Prod.mk.injEq] at h
    obtain ⟨-, h2, h3⟩ := h
    subst h2
    subst h3
    refine ⟨by simp, by simp, ?_, ?_⟩
    · intro t
      simp
    · intro t ht
      simp at ht
  | info =>
    simp only [run_handler, cmd_info] at h
    split at h
    · simp only [Except.ok.injEq, Prod.mk.injEq] at h
      obtain ⟨-, h2, h3⟩ := h
      subst h2
      subst h3
      exact plain_facts (by decide) m1 (by simp)
    · split_ifs at h
      · simp only [Except.ok.injEq, Prod.mk.injEq] at h
        obtain ⟨-, h2, h3⟩ := h
        subst h2
        subst h3
        exact plain_facts (by decide) m1 (by simp)
      · split at h
        · simp at h
        · simp only [Except.ok.injEq, Prod.mk.injEq] at h
          obtain ⟨-, h2, h3⟩ := h
          subst h2
          subst h3
          exact plain_facts (by decide) m1 (by simp)
      · simp only [Except.ok.injEq, Prod.mk.injEq] at h
        obtain ⟨-, h2, h3⟩ := h
        subst h2
        subst h3
        exact plain_facts (by decide) m1 (by simp)
  | x =>
    simp only [run_handler, cmd_x] at h
    split at h
    · simp only [Except.ok.injEq, Prod.mk.injEq] at h
      obtain ⟨-, h2, h3⟩ := h
      subst h2
      subst h3
      exact plain_facts (by decide) m1 (by simp)
    · split at h
      · simp only [Except.ok.injEq, Prod.mk.injEq] at h
        obtain ⟨-, h2, h3⟩ := h
        subst h2
        subst h3
        exact plain_facts (by decide) m1 (by simp)
      · split at h
        · simp only [Except.ok.injEq, Prod.mk.injEq] at h
          obtain ⟨-, h2, h3⟩ := h
          subst h2
          subst h3
          refine plain_facts (by decide) m1 ?_
          intro o ho
          rcases List.mem_cons.mp ho with ho | ho
          · subst ho
            simp
          · rcases x_rows_mem _ _ _ _ ho with ⟨a, b0, b1, b2, b3, e⟩ | ⟨b0, b1, b2, b3, e⟩
            · subst e
              simp
            · subst e
              simp
        · simp only [Except.ok.injEq, Prod.mk.injEq] at h
          obtain ⟨-, h2, h3⟩ := h
          subst h2
          subst h3
          exact plain_facts (by decide) m1 (by simp)
  | p =>
    simp only [run_handler, cmd_p] at h
    split at h
    · simp only [Except.ok.injEq, Prod.mk.injEq] at h
      obtain ⟨-, h2, h3⟩ := h
      subst h2
      subst h3
      exact plain_facts (by decide) m1 (by simp)
    · split at h
      · simp only [Except.ok.injEq, Prod.mk.injEq] at h
        obtain ⟨-, h2, h3⟩ := h
        subst h2
        subst h3
        exact plain_facts (by decide) m1 (by simp)
      · simp only [Except.ok.injEq, Prod.mk.injEq] at h
        obtain ⟨-, h2, h3⟩ := h
        subst h2
        subst h3
        exact plain_facts (by decide) m1 (by simp)
  | w =>
    simp only [run_handler, cmd_w] at h
    split at h
    · simp only [Except.ok.injEq, Prod.mk.injEq] at h
      obtain ⟨-, h2, h3⟩ := h
      subst h2
      subst h3
      exact plain_facts (by decide) m1 (by simp)
    · split at h
      · simp at h
      · simp only [Except.ok.injEq, Prod.mk.injEq] at h
        obtain ⟨-, h2, h3⟩ := h
        subst h2
        subst h3
        exact plain_facts (by decide) m1 (by simp)
      · simp only [Except.ok.injEq, Prod.mk.injEq] at h
        obtain ⟨-, h2, h3⟩ := h
        subst h2
        subst h3
        exact plain_facts (by decide) m1 (by simp)
  | d =>
    simp only [run_handler, cmd_d] at h
    split at h
    · simp only [Except.ok.injEq, Prod.mk.injEq] at h
      obtain ⟨-, h2, h3⟩ := h
      subst h2
      subst h3
      exact plain_facts (by decide) m1 (by simp)
    · split at h
      · simp at h
      · simp only [Except.ok.injEq, Prod.mk.injEq] at h
        obtain ⟨-, h2, h3⟩ := h
        subst h2
        subst h3
        exact plain_facts (by decide) m1 (by simp)

theorem handler_total {N : Nat} (hN : 0 < N) (ext : Ext) {fuel : Nat} (hfuel : N ≤ fuel)
    {m : Monitor} (h : Reachable N m.wp) (hd : Cmd) (args : Option String) (saved : List Char)
    (hshort : hd = Cmd.w → ∀ a, args = some a → a.utf8ByteSize < 128) :
    ∃ r, run_handler ext fuel hd args saved m = .ok r := by
  obtain ⟨act, fr, hinv⟩ := reachable_inv hN h
  have hlen : act.length ≤ fuel := le_trans hinv.length_le hfuel
  cases hd with
  | help =>
    simp only [run_handler, cmd_help]
    cases (strtok saved).1 <;> exact ⟨_, rfl⟩
  | c => exact ⟨_, rfl⟩
  | q => exact ⟨_, rfl⟩
  | si => exact ⟨_, rfl⟩
  | info =>
    simp only [run_handler, cmd_info]
    cases args with
    | none => exact ⟨_, rfl⟩
    | some a =>
      simp only [print_wp_spec hinv hlen]
      split_ifs <;> exact ⟨_, rfl⟩
  | x =>
    simp only [run_handler, cmd_x]
    split
    · exact ⟨_, rfl⟩
    · split
      · exact ⟨_, rfl⟩
      · split <;> exact ⟨_, rfl⟩
  | p =>
    simp only [run_handler, cmd_p]
    cases args with
    | none => exact ⟨_, rfl⟩
    | some a =>
      cases hx : ext.expr a with
      | none =>
        simp only [hx]
        exact ⟨_, rfl⟩
      | some v =>
        simp only [hx]
        exact ⟨_, rfl⟩
  | w =>
    simp only [run_handler, cmd_w]
    cases args with
    | none => exact ⟨_, rfl⟩
    | some a =>
      obtain ⟨s1, r, -, -, h1, -⟩ := new_wp_total hinv a (hshort rfl a rfl)
      cases r with
      | none =>
        simp only [h1]
        exact ⟨_, rfl⟩
      | some v =>
        simp only [h1]
        exact ⟨_, rfl⟩
  | d =>
    simp only [run_handler, cmd_d]
    cases args with
    | none => exact ⟨_, rfl⟩
    | some a =>
      obtain ⟨s1, o, -, -, h1, -⟩ := free_wp_total hinv hlen (atoi a.toList)
      simp only [h1]
      exact ⟨_, rfl⟩

theorem mem_cmd_table_of_name {cmd : String}
    (h : cmd ∈ cmd_table.map Entry.name) : ∃ e, e ∈ cmd_table ∧ cmd = e.name := by
  obtain ⟨e, he, hn⟩ := List.mem_map.mp h
  exact ⟨e, he, hn.symm⟩

theorem q_entry {e : Entry} (he : e ∈ cmd_table) : e.name = "q" ↔ e.handler = Cmd.q := by
  simp only [cmd_table, List.mem_cons, List.mem_singleton, List.not_mem_nil, or_false] at he
  rcases he with rfl | rfl | rfl | rfl | rfl | rfl | rfl | rfl | rfl <;> decide

/-- C11: in a reachable pool state whose active list `act` is not empty, one iteration of
`sdb_mainloop` on the input "info w" returns without ending the loop, leaves the monitor
state as it was, and prints what `print_wp` prints: the table header and then one row per
active slot, in active-list order, with the `NO`, `exp` and `old` of that slot. -/
theorem C11_info_w_lists_watchpoints (N : Nat) (hN : 0 < N) (ext : Ext) (m : Monitor)
    (h : Reachable N m.wp) (act : List Nat) (hact : Seg m.wp.wp_pool m.wp.head act none)
    (hne : act ≠ []) (fuel : Nat) (hfuel : N ≤ fuel) :
    mainloop_step ext fuel (some "info w") m
        = .ok (m, false, Print.wp Out.header ::
            act.map (fun i => Print.wp (Out.row (m.wp.wp_pool i).NO (m.wp.wp_pool i).exp
              (m.wp.wp_pool i).old))) ∧
      print_wp fuel m.wp
        = .ok (Out.header :: act.map (fun i => Out.row (m.wp.wp_pool i).NO
            (m.wp.wp_pool i).exp (m.wp.wp_pool i).old)) := by
  obtain ⟨fr, hinv⟩ := reachable_act hN h hact
  have hp := print_wp_spec hinv (le_trans hinv.length_le hfuel)
  simp only [hne, if_false] at hp
  have hs : split_line (rl_gets (some "info w")) = some ("info", some "w", ['w']) := by decide
  refine ⟨?_, hp⟩
  simp only [mainloop_step, hs]
  have hl := lookup_hit ext fuel (some "w") ['w'] m cmd_table cmd_table_nodup
    ⟨"info", "Print register status or wachpoint information", Cmd.info⟩ (by simp [cmd_table])
  simp only at hl
  rw [hl]
  simp only [run_handler, cmd_info, hp, after_handler]
  simp [row_of]

/-- C11 on `sample_x`, a pool with one active watchpoint: the header and exactly one row. -/
theorem C11_info_w_lists_watchpoints_witness :
    mainloop_step sample_ext 3 (some "info w") ⟨sample_x, NEMUState.NEMU_RUNNING⟩
        = .ok (⟨sample_x, NEMUState.NEMU_RUNNING⟩, false, Print.wp Out.header ::
            [0].map (fun i => Print.wp (Out.row (sample_x.wp_pool i).NO (sample_x.wp_pool i).exp
              (sample_x.wp_pool i).old))) ∧
      print_wp 3 sample_x
        = .ok (Out.header :: [0].map (fun i => Out.row (sample_x.wp_pool i).NO
            (sample_x.wp_pool i).exp (sample_x.wp_pool i).old)) :=
  C11_info_w_lists_watchpoints 3 (by decide) sample_ext ⟨sample_x, NEMUState.NEMU_RUNNING⟩
    reachable_sample_x [0] (by decide) (by decide) 3 (by decide)

theorem w_entry {e : Entry} (he : e ∈ cmd_table) : e.name = "w" ↔ e.handler = Cmd.w := by
  simp only [cmd_table, List.mem_cons, List.mem_singleton, List.not_mem_nil, or_false] at he
  rcases he with rfl | rfl | rfl | rfl | rfl | rfl | rfl | rfl | rfl <;> decide

/-- One iteration of `sdb_mainloop` whose command token names a table entry, in a reachable
pool state: the entry's handler returns and the iteration ends as `after_handler` says. -/
theorem mainloop_step_hit {N : Nat} (hN : 0 < N) (ext : Ext) {fuel : Nat} (hfuel : N ≤ fuel)
    {m : Monitor} (h : Reachable N m.wp) {line_read : Option String} {cmd : String}
    {args : Option String} {saved : List Char}
    (hsplit : split_line (rl_gets line_read) = some (cmd, args, saved))
    (hshort : cmd = "w" → ∀ a, args = some a → a.utf8ByteSize < 128)
    {e : Entry} (he : e ∈ cmd_table) (hname : cmd = e.name) :
    ∃ m1 ret out, run_handler ext fuel e.handler args saved m = .ok (m1, ret, out) ∧
      mainloop_step ext fuel line_read m = .ok (m1, decide (ret < 0), out) := by
  subst hname
  obtain ⟨⟨m1, ret, out⟩, hr⟩ := handler_total hN ext hfuel h e.handler args saved
    (fun hw => hshort ((w_entry he).mpr hw))
  refine ⟨m1, ret, out, hr, ?_⟩
  simp only [mainloop_step, hsplit]
  rw [lookup_hit ext fuel args saved m cmd_table cmd_table_nodup e he, hr]
  rfl

theorem mainloop_step_miss (ext : Ext) (fuel : Nat) (m : Monitor) {line_read : Option String}
    {cmd : String} {args : Option String} {saved : List Char}
    (hsplit : split_line (rl_gets line_read) = some (cmd, args, saved))
    (hmiss : ∀ e, e ∈ cmd_table → cmd ≠ e.name) :
    mainloop_step ext fuel line_read m = .ok (m, false, [Print.unknown_command cmd]) := by
  simp only [mainloop_step, hsplit]
  exact lookup_miss ext fuel cmd args saved m cmd_table hmiss

/-- C12: a handler of `cmd_table` that returns has returned a negative value exactly when it
is `cmd_q`; in a reachable pool state every handler returns (for `cmd_w`, on a text shorter
than 128 bytes); and one iteration of `sdb_mainloop` returns, ending the loop exactly when
the command token of the line is "q", in which case `nemu_state.state` is `NEMU_QUIT`. -/
theorem C12_only_quit_stops (N : Nat) (hN : 0 < N) (ext : Ext) (m : Monitor)
    (h : Reachable N m.wp) (fuel : Nat) (hfuel : N ≤ fuel) (line_read : Option String)
    (hshort : ∀ a saved, split_line (rl_gets line_read) = some ("w", some a, saved) →
      a.utf8ByteSize < 128) :
    (∀ hd args saved m0 m1 ret out,
        run_handler ext fuel hd args saved m0 = .ok (m1, ret, out) → (ret < 0 ↔ hd = Cmd.q)) ∧
    (∀ hd args saved, (hd = Cmd.w → ∀ a, args = some a → a.utf8ByteSize < 128) →
        ∃ r, run_handler ext fuel hd args saved m = .ok r) ∧
    ∃ m1 stop out, mainloop_step ext fuel line_read m = .ok (m1, stop, out) ∧
      (stop = true ↔ ∃ args saved, split_line (rl_gets line_read) = some ("q", args, saved)) ∧
      (stop = true → m1.nemu_state = NEMUState.NEMU_QUIT) := by
  refine ⟨?_, ?_, ?_⟩
  · intro hd args saved m0 m1 ret out hr
    exact (handler_facts hr).1
  · intro hd args saved hs
    exact handler_total hN ext hfuel h hd args saved hs
  · cases hsplit : split_line (rl_gets line_read) with
    | none =>
      refine ⟨m, false, [], ?_, ?_, ?_⟩
      · simp only [mainloop_step, hsplit]
      · simp
      · simp
    | some r =>
      obtain ⟨cmd, args, saved⟩ := r
      by_cases hmem : cmd ∈ cmd_table.map Entry.name
      · obtain ⟨e, he, hname⟩ := mem_cmd_table_of_name hmem
        obtain ⟨m1, ret, out, hr, hstep⟩ := mainloop_step_hit hN ext hfuel h hsplit
          (fun hw a ha => hshort a saved (by rw [hsplit, hw, ha])) he hname
        obtain ⟨hret, hquit, -, -⟩ := handler_facts hr
        refine ⟨m1, decide (ret < 0), out, hstep, ?_, ?_⟩
        · rw [decide_eq_true_iff, hret, ← q_entry he, ← hname]
          constructor
          · intro hq
            exact ⟨args, saved, by rw [hq]⟩
          · rintro ⟨a1, s1, heq⟩
            simp only [Option.some.injEq, Prod.mk.injEq] at heq
            exact heq.1
        · intro hstop
          rw [decide_eq_true_iff, hret] at hstop
          exact hquit hstop
      · have hmiss : ∀ e, e ∈ cmd_table → cmd ≠ e.name :=
          fun e he hn => hmem (hn ▸ List.mem_map_of_mem Entry.name he)
        refine ⟨m, false, _, mainloop_step_miss ext fuel m hsplit hmiss, ?_, ?_⟩
        · simp only [Bool.false_eq_true, false_iff, not_exists]
          intro a1 s1 heq
          simp only [Option.some.injEq, Prod.mk.injEq] at heq
          exact hmem (by rw [heq.1, cmd_table_names]; decide)
        · simp

/-- C12 on `sample_xy` with the input "q": the loop ends in the quit state. -/
theorem C12_only_quit_stops_witness :
    (∀ hd args saved m0 m1 ret out,
        run_handler sample_ext 3 hd args saved m0 = .ok (m1, ret, out) →
        (ret < 0 ↔ hd = Cmd.q)) ∧
    (∀ hd args saved, (hd = Cmd.w → ∀ a, args = some a → a.utf8ByteSize < 128) →
        ∃ r, run_handler sample_ext 3 hd args saved ⟨sample_xy, NEMUState.NEMU_RUNNING⟩
          = .ok r) ∧
    ∃ m1 stop out, mainloop_step sample_ext 3 (some "q") ⟨sample_xy, NEMUState.NEMU_RUNNING⟩
        = .ok (m1, stop, out) ∧
      (stop = true ↔ ∃ args saved, split_line (rl_gets (some "q")) = some ("q", args, saved)) ∧
      (stop = true → m1.nemu_state = NEMUState.NEMU_QUIT) :=
  C12_only_quit_stops 3 (by decide) sample_ext ⟨sample_xy, NEMUState.NEMU_RUNNING⟩
    reachable_sample_xy 3 (by decide) (some "q") (by
      intro a saved hs
      have h1 : split_line (rl_gets (some "q")) = some ("q", none, []) := by decide
      rw [h1] at hs
      simp at hs)

/-- C13: `cmd_table` holds the nine names help, c, q, si, info, x, p, w, d. For a line whose
command token is none of them, one iteration of `sdb_mainloop` prints the unknown-command
line with that token and nothing else, leaves the pool and `nemu_state` as they were and
does not end the loop. For a token that is the name of an entry (in a reachable pool state)
the iteration is the call of that entry's handler, and the output contains neither the
dispatcher's unknown-command line nor an unknown-command line of `cmd_help` for that token. -/
theorem C13_unknown_command (N : Nat) (hN : 0 < N) (ext : Ext) (m : Monitor)
    (h : Reachable N m.wp) (fuel : Nat) (hfuel : N ≤ fuel) (line_read : Option String)
    (cmd : String) (args : Option String) (saved : List Char)
    (hsplit : split_line (rl_gets line_read) = some (cmd, args, saved))
    (hshort : cmd = "w" → ∀ a, args = some a → a.utf8ByteSize < 128) :
    cmd_table.map Entry.name = ["help", "c", "q", "si", "info", "x", "p", "w", "d"] ∧
    (cmd ∉ cmd_table.map Entry.name →
      mainloop_step ext fuel line_read m = .ok (m, false, [Print.unknown_command cmd])) ∧
    (∀ e, e ∈ cmd_table → cmd = e.name →
      ∃ m1 ret out, run_handler ext fuel e.handler args saved m = .ok (m1, ret, out) ∧
        mainloop_step ext fuel line_read m = .ok (m1, decide (ret < 0), out) ∧
        (∀ t, Print.unknown_command t ∉ out) ∧ Print.help_unknown cmd ∉ out) := by
  refine ⟨cmd_table_names, ?_, ?_⟩
  · intro hmem
    exact mainloop_step_miss ext fuel m hsplit
      (fun e he hn => hmem (hn ▸ List.mem_map_of_mem Entry.name he))
  · intro e he hname
    obtain ⟨m1, ret, out, hr, hstep⟩ := mainloop_step_hit hN ext hfuel h hsplit hshort he hname
    obtain ⟨-, -, hunk, hhelp⟩ := handler_facts hr
    refine ⟨m1, ret, out, hr, hstep, hunk, ?_⟩
    intro hmem
    exact (hhelp cmd hmem).2 e he hname

/-- C13 on `sample_xy` with the input "foo bar", whose token "foo" is not in the table. -/
theorem C13_unknown_command_witness :
    cmd_table.map Entry.name = ["help", "c", "q", "si", "info", "x", "p", "w", "d"] ∧
    ("foo" ∉ cmd_table.map Entry.name →
      mainloop_step sample_ext 3 (some "foo bar") ⟨sample_xy, NEMUState.NEMU_RUNNING⟩
        = .ok (⟨sample_xy, NEMUState.NEMU_RUNNING⟩, false, [Print.unknown_command "foo"])) ∧
    (∀ e, e ∈ cmd_table → "foo" = e.name →
      ∃ m1 ret out, run_handler sample_ext 3 e.handler (some "bar") ['b', 'a', 'r']
          ⟨sample_xy, NEMUState.NEMU_RUNNING⟩ = .ok (m1, ret, out) ∧
        mainloop_step sample_ext 3 (some "foo bar") ⟨sample_xy, NEMUState.NEMU_RUNNING⟩
          = .ok (m1, decide (ret < 0), out) ∧
        (∀ t, Print.unknown_command t ∉ out) ∧ Print.help_unknown "foo" ∉ out) :=
  C13_unknown_command 3 (by decide) sample_ext ⟨sample_xy, NEMUState.NEMU_RUNNING⟩
    reachable_sample_xy 3 (by decide) (some "foo bar") "foo" (some "bar") ['b', 'a', 'r']
    (by decide) (fun hw => absurd hw (by decide))

theorem takeWhile_token (l r : List Char) (h : ∀ c, c ∈ l → c ≠ ' ') :
    (l ++ ' ' :: r).takeWhile (fun c => c != ' ') = l ∧
      (l ++ ' ' :: r).dropWhile (fun c => c != ' ') = ' ' :: r := by
  induction l with
  | nil => simp
  | cons x xs ih =>
    have hx : x ≠ ' ' := h x (List.mem_cons_self x xs)
    have ih1 := ih (fun c hc => h c (List.mem_cons_of_mem x hc))
    simp [List.takeWhile_cons, List.dropWhile_cons, hx, ih1.1, ih1.2]

theorem takeWhile_token_end (l : List Char) (h : ∀ c, c ∈ l → c ≠ ' ') :
    l.takeWhile (fun c => c != ' ') = l ∧ l.dropWhile (fun c => c != ' ') = [] := by
  induction l with
  | nil => simp
  | cons x xs ih =>
    have hx : x ≠ ' ' := h x (List.mem_cons_self x xs)
    have ih1 := ih (fun c hc => h c (List.mem_cons_of_mem x hc))
    simp [List.takeWhile_cons, List.dropWhile_cons, hx, ih1.1, ih1.2]

theorem strtok_token (cmd r : List Char) (hcmd : cmd ≠ []) (h : ∀ c, c ∈ cmd → c ≠ ' ') :
    strtok (cmd ++ ' ' :: r) = (some cmd, r) ∧ strtok cmd = (some cmd, []) := by
  cases cmd with
  | nil => exact absurd rfl hcmd
  | cons x xs =>
    have hx : x ≠ ' ' := h x (List.mem_cons_self x xs)
    have h1 := takeWhile_token (x :: xs) r h
    have h2 := takeWhile_token_end (x :: xs) h
    constructor
    · have hd : ((x :: xs) ++ ' ' :: r).dropWhile (fun c => c == ' ') = x :: (xs ++ ' ' :: r) := by
        simp [List.dropWhile_cons, hx]
      unfold strtok
      rw [hd]
      simp only
      rw [show x :: (xs ++ ' ' :: r) = (x :: xs) ++ ' ' :: r from rfl, h1.1, h1.2]
      rfl
    · have hd : (x :: xs).dropWhile (fun c => c == ' ') = x :: xs := by
        simp [List.dropWhile_cons, hx]
      unfold strtok
      rw [hd]
      simp only
      rw [h2.1, h2.2]
      rfl

theorem rl_gets_mk (l : List Char) (hl : l ≠ []) : rl_gets (some (String.mk l)) = String.mk l := by
  unfold rl_gets
  have : String.mk l ≠ "" := by
    intro e
    have e1 : (String.mk l).data = ("" : String).data := by rw [e]
    exact hl e1
  simp [this]

/-- C14 (as stated, refuted): on "info" followed by two spaces and "w" the split gives the
argument " w", with the second space still in front, so `cmd_info` matches neither "r" nor
"w" and prints nothing, while "info w" prints the watchpoint table. -/
theorem C14_second_space_kept :
    split_line "info  w" = some ("info", some " w", [' ', 'w']) ∧
      mainloop_step sample_ext 3 (some "info  w") ⟨sample_x, NEMUState.NEMU_RUNNING⟩
        = .ok (⟨sample_x, NEMUState.NEMU_RUNNING⟩, false, []) ∧
      mainloop_step sample_ext 3 (some "info w") ⟨sample_x, NEMUState.NEMU_RUNNING⟩
        = .ok (⟨sample_x, NEMUState.NEMU_RUNNING⟩, false,
            [Print.wp Out.header, Print.wp (Out.row 0 "x" 0)]) :=
  ⟨by decide, rfl, rfl⟩

/-- C14 (amended): for a command token `cmd` (not empty, without a space) and a text `rem`
that is not empty, the line `cmd`, one space, `rem` is split after that one space: the table
search runs for `cmd` with the argument `rem`, whatever `rem` begins with; and for the line
`cmd` alone, or `cmd` followed by one space, the argument is `NULL`. -/
theorem C14_split_after_one_space (cmd rem : List Char) (hcmd : cmd ≠ [])
    (hnosp : ∀ c, c ∈ cmd → c ≠ ' ') (hrem : rem ≠ []) :
    split_line (String.mk (cmd ++ ' ' :: rem)) = some (String.mk cmd, some (String.mk rem), rem) ∧
      split_line (String.mk cmd) = some (String.mk cmd, none, []) ∧
      split_line (String.mk (cmd ++ [' '])) = some (String.mk cmd, none, []) ∧
      ∀ (ext : Ext) (fuel : Nat) (m : Monitor),
        mainloop_step ext fuel (some (String.mk (cmd ++ ' ' :: rem))) m
          = lookup_loop ext fuel (String.mk cmd) (some (String.mk rem)) rem m cmd_table ∧
        mainloop_step ext fuel (some (String.mk cmd)) m
          = lookup_loop ext fuel (String.mk cmd) none [] m cmd_table := by
  have h1 : split_line (String.mk (cmd ++ ' ' :: rem))
      = some (String.mk cmd, some (String.mk rem), rem) := by
    unfold split_line
    rw [show (String.mk (cmd ++ ' ' :: rem)).toList = cmd ++ ' ' :: rem from rfl,
      (strtok_token cmd rem hcmd hnosp).1]
    simp [hrem]
  have h2 : split_line (String.mk cmd) = some (String.mk cmd, none, []) := by
    unfold split_line
    rw [show (String.mk cmd).toList = cmd from rfl, (strtok_token cmd [] hcmd hnosp).2]
    simp
  have h3 : split_line (String.mk (cmd ++ [' '])) = some (String.mk cmd, none, []) := by
    unfold split_line
    rw [show (String.mk (cmd ++ [' '])).toList = cmd ++ ' ' :: [] from rfl,
      (strtok_token cmd [] hcmd hnosp).1]
    simp
  refine ⟨h1, h2, h3, ?_⟩
  intro ext fuel m
  constructor
  · simp only [mainloop_step, rl_gets_mk _ (show cmd ++ ' ' :: rem ≠ [] by simp), h1]
  · simp only [mainloop_step, rl_gets_mk _ hcmd, h2]

/-- C14 (amended) on the token "info" and the remainder " w": the argument is " w". -/
theorem C14_split_after_one_space_witness :
    split_line (String.mk (['i', 'n', 'f', 'o'] ++ ' ' :: [' ', 'w']))
        = some (String.mk ['i', 'n', 'f', 'o'], some (String.mk [' ', 'w']), [' ', 'w']) ∧
      split_line (String.mk ['i', 'n', 'f', 'o']) = some (String.mk ['i', 'n', 'f', 'o'], none, []) ∧
      split_line (String.mk (['i', 'n', 'f', 'o'] ++ [' ']))
        = some (String.mk ['i', 'n', 'f', 'o'], none, []) ∧
      ∀ (ext : Ext) (fuel : Nat) (m : Monitor),
        mainloop_step ext fuel (some (String.mk (['i', 'n', 'f', 'o'] ++ ' ' :: [' ', 'w']))) m
          = lookup_loop ext fuel (String.mk ['i', 'n', 'f', 'o']) (some (String.mk [' ', 'w']))
              [' ', 'w'] m cmd_table ∧
        mainloop_step ext fuel (some (String.mk ['i', 'n', 'f', 'o'])) m
          = lookup_loop ext fuel (String.mk ['i', 'n', 'f', 'o']) none [] m cmd_table :=
  C14_split_after_one_space ['i', 'n', 'f', 'o'] [' ', 'w'] (by decide) (by decide) (by decide)

/-- C15 (as stated, refuted): "abc" is not a decimal integer and `atoi` makes it 0, so on
`sample_xy`, where the watchpoints 0 and 1 are active and one slot is free, the line "d abc"
calls `free_wp(0)` and watchpoint 0 is deleted: the listing loses its first row. -/
theorem C15_d_abc_deletes_watchpoint_0 :
    atoi "abc".toList = 0 ∧
      print_wp 3 sample_xy = .ok [Out.header, Out.row 0 "x" 0, Out.row 1 "y" 0] ∧
      mainloop_step sample_ext 3 (some "d abc") ⟨sample_xy, NEMUState.NEMU_RUNNING⟩
        = .ok (⟨state_of (free_wp 3 0 sample_xy), NEMUState.NEMU_RUNNING⟩, false, []) ∧
      print_wp 3 (state_of (free_wp 3 0 sample_xy)) = .ok [Out.header, Out.row 1 "y" 0] :=
  ⟨by decide, rfl, rfl, rfl⟩

/-- C15 (amended): in a reachable pool state, for every argument text, `cmd_d` calls
`free_wp(atoi(args))` and returns 0; the resulting pool state is reachable and satisfies the
pool invariant; and when no active slot has the id `atoi(args)` the pool state is the one
before the call. -/
theorem C15_cmd_d_keeps_invariants (N : Nat) (hN : 0 < N) (m : Monitor)
    (h : Reachable N m.wp) (fuel : Nat) (hfuel : N ≤ fuel) (a : String) :
    ∃ s1 out, free_wp fuel (atoi a.toList) m.wp = .ok (s1, out) ∧
      cmd_d fuel (some a) m = .ok ({ m with wp := s1 }, 0, out.map Print.wp) ∧
      Reachable N s1 ∧ (∃ act1 fr1, PoolInv N s1 act1 fr1) ∧
      ((∀ act, Seg m.wp.wp_pool m.wp.head act none →
          ∀ i, i ∈ act → (m.wp.wp_pool i).NO ≠ atoi a.toList) → s1 = m.wp) := by
  obtain ⟨act, fr, hinv⟩ := reachable_inv hN h
  have hlen : act.length ≤ fuel := le_trans hinv.length_le hfuel
  obtain ⟨s1, o, act1, fr1, h1, hinv1⟩ := free_wp_total hinv hlen (atoi a.toList)
  refine ⟨s1, o, h1, ?_, Reachable.free_wp h h1, ⟨act1, fr1, hinv1⟩, ?_⟩
  · simp only [cmd_d, h1]
  · intro hno
    have hno1 := hno act hinv.act_seg
    cases fr with
    | nil =>
      rw [free_wp_full hinv fuel _] at h1
      cases h1
      rfl
    | cons f fr =>
      rw [free_wp_not_found hinv hlen hno1] at h1
      cases h1
      rfl

/-- C15 (amended) on `sample_xy` with the argument "7x": `atoi` gives 7, no watchpoint
has id 7. -/
theorem C15_cmd_d_keeps_invariants_witness :
    ∃ s1 out, free_wp 3 (atoi "7x".toList) sample_xy = .ok (s1, out) ∧
      cmd_d 3 (some "7x") ⟨sample_xy, NEMUState.NEMU_RUNNING⟩
        = .ok ({ (⟨sample_xy, NEMUState.NEMU_RUNNING⟩ : Monitor) with wp := s1 }, 0,
            out.map Print.wp) ∧
      Reachable 3 s1 ∧ (∃ act1 fr1, PoolInv 3 s1 act1 fr1) ∧
      ((∀ act, Seg sample_xy.wp_pool sample_xy.head act none →
          ∀ i, i ∈ act → (sample_xy.wp_pool i).NO ≠ atoi "7x".toList) → s1 = sample_xy) :=
  C15_cmd_d_keeps_invariants 3 (by decide) ⟨sample_xy, NEMUState.NEMU_RUNNING⟩
    reachable_sample_xy 3 (by decide) "7x"

end Watchpoint
